import Mathlib

/-!
Verification development for the `vscode-mock-debug` Solana debug adapter.

The adapter's logic-bearing code lives in two TypeScript files:
`src/debugRuntime.ts` (class `SolanaRuntime`: breakpoint store, source-line
scanning, the runtime-side path remapping) and the session controller file
(class `SolanaDebugSession`: DAP request handlers, the session-side path
remapping in `setBreakPointsRequest`, the reverse remapping and the
busy-flag serialization in `lldbRun`).

Strings are modelled as `List Char`; JavaScript's `String.prototype.split`,
`includes`, indexing an array with `[1]` (which may yield `undefined`),
`'str' + maybeUndefined` coercion, and `Array.prototype.toString`
(comma-join) are each given a small executable model below.
-/

/-- JS `undefined` rendered into a string by `+` coercion. -/
def undefinedStr : List Char := "undefined".data

/-- Index of the first occurrence of `sep` in `l` (leftmost match), if any. -/
def firstOcc (sep : List Char) : List Char → Option Nat
  | [] => if sep = [] then some 0 else none
  | c :: rest =>
    if sep.isPrefixOf (c :: rest) then some 0
    else (firstOcc sep rest).map (· + 1)

/-- JS `l.includes(sep)`. -/
def jsIncludes (sep l : List Char) : Bool := (firstOcc sep l).isSome

/-- Fueled worker for JS `String.prototype.split`: repeatedly cut at the
leftmost occurrence of `sep`.  `fuel = l.length + 1` is always enough for a
nonempty separator. -/
def jsSplitFueled (sep : List Char) : Nat → List Char → List (List Char)
  | 0, l => [l]
  | fuel + 1, l =>
    match firstOcc sep l with
    | none => [l]
    | some i => l.take i :: jsSplitFueled sep fuel (l.drop (i + sep.length))

/-- JS `l.split(sep)` for a nonempty separator. -/
def jsSplit (sep l : List Char) : List (List Char) :=
  jsSplitFueled sep (l.length + 1) l

/-- JS `l.split(sep)[1]`: `none` models `undefined`. -/
def jsSplit1 (sep l : List Char) : Option (List Char) := (jsSplit sep l).get? 1

/-- JS `a + b` where `b : string | undefined`. -/
def jsStrPlus (a : List Char) (b : Option (List Char)) : List Char :=
  a ++ b.getD undefinedStr

/-- JS `Array.prototype.toString` on an array of strings: comma join. -/
def jsJoinComma (xs : List (List Char)) : List Char :=
  List.intercalate [','] xs

/-- The suffix of `l` after the first occurrence of the marker `sep`
(the spec's "substring after" the marker; empty when the marker is absent). -/
def substringAfter (sep l : List Char) : List Char :=
  match firstOcc sep l with
  | some i => l.drop (i + sep.length)
  | none => []

/-! ### Path-translation constants (hardcoded in the source) -/

def codeMarker : List Char := "code/".data
def sdkMarker : List Char := "sdk".data
def sdkProgramMarker : List Char := "sdk/program/".data
def rustSolanaMarker : List Char := "rust-solana".data
def rustSolanaVersionMarker : List Char := "rust-solana-1.59.0/".data
def homeHomeMarker : List Char := "home/home/".data
def homeRunnerMarker : List Char := "/home/runner".data
def outRustMarker : List Char := "out/rust/".data
def homeMarker : List Char := "home/".data
def runnerOutRustPath : List Char :=
  "/home/runner/work/bpf-tools/bpf-tools/out/rust/".data
def solSdkPath : List Char :=
  "/home/wj/temp/test_theia/debug-test/code/sdk/program/".data
def rustCorePath : List Char :=
  "/home/wj/temp/test_theia/debug-test/code/rust-solana-1.59.0/".data
def projectPath : List Char :=
  "/home/wj/temp/test_theia/debug-test/code/".data

/-- Forward translation, editor path → engine path, as performed by
`SolanaDebugSession.setBreakPointsRequest`:

`let lldbPath = args.source.path?.split("code/")[1];`
then the sdk / rust-solana / project three-way branch, each branch using
`split(marker)[1]` and string concatenation (undefined coerces to the text
`"undefined"`, exactly as `+` does in JS). -/
def toEnginePath (path : Option (List Char)) : List Char :=
  match path.bind (jsSplit1 codeMarker) with
  | some lldbPath =>
    if jsIncludes sdkMarker lldbPath then
      jsStrPlus homeHomeMarker (jsSplit1 sdkProgramMarker lldbPath)
    else if jsIncludes rustSolanaMarker lldbPath then
      jsStrPlus runnerOutRustPath (jsSplit1 rustSolanaVersionMarker lldbPath)
    else
      homeMarker ++ lldbPath
  | none => homeMarker ++ undefinedStr

/-- Reverse translation, engine path → editor path, as performed per stack
frame inside `SolanaDebugSession.lldbRun` for `request_stackTrace`
responses (the `home/home/` / `/home/runner` / project three-way branch). -/
def toEditorPath (sourcePath : Option (List Char)) : List Char :=
  match sourcePath with
  | some p =>
    if jsIncludes homeHomeMarker p then
      jsStrPlus solSdkPath (jsSplit1 homeHomeMarker p)
    else if jsIncludes homeRunnerMarker p then
      jsStrPlus rustCorePath (jsSplit1 outRustMarker p)
    else
      jsStrPlus projectPath (jsSplit1 homeMarker p)
  | none => jsStrPlus projectPath none

/-- Forward translation as performed by `SolanaRuntime.setBreakPoint`
(`src/debugRuntime.ts`, lines 264-276).  Note the source writes
`'home/home/' + lldbPath.split('sdk/program/')` with NO `[1]` index: JS
coerces the split array to its comma-joined string.  `none` models the
`TypeError` thrown by `lldbPath.includes(...)` when `path.split("code/")[1]`
is `undefined`. -/
def setBreakPointLldbPath (path : List Char) : Option (List Char) :=
  match jsSplit1 codeMarker path with
  | none => none
  | some lldbPath =>
    if jsIncludes sdkMarker lldbPath then
      some (homeHomeMarker ++ jsJoinComma (jsSplit sdkProgramMarker lldbPath))
    else if jsIncludes rustSolanaMarker lldbPath then
      some (runnerOutRustPath ++ jsJoinComma (jsSplit rustSolanaVersionMarker lldbPath))
    else
      some (homeMarker ++ jsJoinComma (jsSplit codeMarker lldbPath))

/-! ### Stack-trace response adjustment (`lldbRun`, `request_stackTrace`) -/

/-- `DebugProtocol.Source` fields the adjustment loop touches. -/
structure Source where
  name : Option (List Char)
  path : Option (List Char)
  sourceReference : Option Nat
deriving DecidableEq, Repr

/-- A stack frame of a `stackTrace` response. -/
structure StackFrame where
  name : List Char
  source : Option Source
deriving DecidableEq, Repr

/-- Body of a `stackTrace` response. -/
structure StackTraceBody where
  stackFrames : List StackFrame
  totalFrames : Option Nat
deriving DecidableEq, Repr

/-- Per-frame body of the `lldbRun` adjustment loop: a frame carrying a
`sourceReference` only gets its source display name set to the frame name
(path rewriting skipped); otherwise the source path goes through
`toEditorPath`.  `none` models the `TypeError` raised by the
`source!.path = ...` assignment when the frame has no source object. -/
def adjustFrame (f : StackFrame) : Option StackFrame :=
  match f.source with
  | some src =>
    match src.sourceReference with
    | some _ => some { f with source := some { src with name := some f.name } }
    | none =>
      some { f with source := some { src with path := some (toEditorPath src.path) } }
  | none => none

/-- The loop `for (var id=0; id<totalFrames; id++)`: adjust the first `n`
frames; `none` models the `TypeError` of indexing past the frame array. -/
def adjustFrames : Nat → List StackFrame → Option (List StackFrame)
  | 0, fs => some fs
  | _ + 1, [] => none
  | n + 1, f :: fs =>
    match adjustFrame f, adjustFrames n fs with
    | some f', some fs' => some (f' :: fs')
    | _, _ => none

/-- The whole response adjustment performed by `lldbRun` on a
`request_stackTrace` response body. -/
def lldbRunAdjustStackTrace (b : StackTraceBody) : Option StackTraceBody :=
  (adjustFrames (b.totalFrames.getD 0) b.stackFrames).map
    (fun fs => { b with stackFrames := fs })

/-! ### Breakpoint store (`SolanaRuntime`) -/

/-- `ISolanaBreakpoint` from `src/debugRuntime.ts`. -/
structure ISolanaBreakpoint where
  id : Nat
  line : Nat
  verified : Bool
deriving DecidableEq, Repr

/-- Events a `SolanaRuntime` emits (of those, the one the claims mention). -/
inductive RuntimeEvent where
  | breakpointValidated (bp : ISolanaBreakpoint)
deriving DecidableEq, Repr

/-- The store-relevant state of a `SolanaRuntime`: the
`Map<string, ISolanaBreakpoint[]>` `_breakPoints` (modelled as an
insertion-ordered association list) and the `_breakpointId` counter. -/
structure SolanaRuntimeState where
  breakPoints : List (List Char × List ISolanaBreakpoint)
  breakpointId : Nat
deriving DecidableEq, Repr

/-- Constructor state: empty map, `_breakpointId = 1`. -/
def initialRuntimeState : SolanaRuntimeState :=
  { breakPoints := [], breakpointId := 1 }

/-- `Map.prototype.get`. -/
def mapGet (m : List (List Char × List ISolanaBreakpoint)) (k : List Char) :
    Option (List ISolanaBreakpoint) :=
  match m with
  | [] => none
  | (k', v) :: rest => if k' = k then some v else mapGet rest k

/-- `Map.prototype.set`. -/
def mapSet (m : List (List Char × List ISolanaBreakpoint)) (k : List Char)
    (v : List ISolanaBreakpoint) : List (List Char × List ISolanaBreakpoint) :=
  match m with
  | [] => [(k, v)]
  | (k', v') :: rest =>
    if k' = k then (k, v) :: rest else (k', v') :: mapSet rest k v

/-- First half of `SolanaRuntime.setBreakPoint`: create the breakpoint
record `{ verified: false, line, id: this._breakpointId++ }` and push it
onto the file's list (creating the list when absent). -/
def pushBreakpoint (s : SolanaRuntimeState) (path : List Char) (line : Nat) :
    ISolanaBreakpoint × SolanaRuntimeState :=
  let bp : ISolanaBreakpoint := { id := s.breakpointId, line := line, verified := false }
  let bps := (mapGet s.breakPoints path).getD []
  (bp, { breakPoints := mapSet s.breakPoints path (bps ++ [bp]),
         breakpointId := s.breakpointId + 1 })

/-- `SolanaRuntime.verifyBreakpoints`: mark every breakpoint of the file
verified and emit a `breakpointValidated` event for each. -/
def verifyBreakpoints (s : SolanaRuntimeState) (path : List Char) :
    SolanaRuntimeState × List RuntimeEvent :=
  match mapGet s.breakPoints path with
  | none => (s, [])
  | some bps =>
    let bps' := bps.map (fun bp => { bp with verified := true })
    ({ s with breakPoints := mapSet s.breakPoints path bps' },
     bps'.map RuntimeEvent.breakpointValidated)

/-- `SolanaRuntime.setBreakPoint` (store effect): push, then verify.  The
returned record reflects that the JS function returns the very object that
`verifyBreakpoints` just mutated to `verified = true`. -/
def setBreakPoint (s : SolanaRuntimeState) (path : List Char) (line : Nat) :
    ISolanaBreakpoint × SolanaRuntimeState × List RuntimeEvent :=
  let pushed := pushBreakpoint s path line
  let verified := verifyBreakpoints pushed.2 path
  ({ pushed.1 with verified := true }, verified.1, verified.2)

/-- `SolanaRuntime.clearBreakPoint`: `findIndex` on the line, `splice` it
out and return it; `none` when the file has no list or no match. -/
def clearBreakPoint (s : SolanaRuntimeState) (path : List Char) (line : Nat) :
    Option ISolanaBreakpoint × SolanaRuntimeState :=
  match mapGet s.breakPoints path with
  | none => (none, s)
  | some bps =>
    match bps.findIdx? (fun bp => bp.line == line) with
    | none => (none, s)
    | some i =>
      (bps.get? i, { s with breakPoints := mapSet s.breakPoints path (bps.eraseIdx i) })

/-- The `(all ids below the counter)` invariant the store maintains. -/
def BpIdInv (s : SolanaRuntimeState) : Prop :=
  ∀ kv ∈ s.breakPoints, ∀ bp ∈ kv.2, bp.id < s.breakpointId

/-! ### Source-line scanning (`SolanaRuntime.getBreakpoints`) -/

/-- The scanning loop of `SolanaRuntime.getBreakpoints`: walk the line with
a `sawSpace` flag, recording each index at which a non-space character
follows a space (or starts the line). -/
def scanFrom : List Char → Nat → Bool → List Nat
  | [], _, _ => []
  | c :: rest, i, sawSpace =>
    if c ≠ ' ' then
      if sawSpace then i :: scanFrom rest (i + 1) false
      else scanFrom rest (i + 1) false
    else scanFrom rest (i + 1) true

/-- `getBreakpoints` applied to one line of text. -/
def getBreakpointsLine (l : List Char) : List Nat := scanFrom l 0 true

/-- `SolanaRuntime.getBreakpoints(path, line)`: scans
`this._sourceLines[line]`; the `path` argument is unused by the source.
`none` models the `TypeError` on an out-of-range line. -/
def getBreakpoints (sourceLines : List (List Char)) (path : List Char)
    (line : Nat) : Option (List Nat) :=
  (sourceLines.get? line).map (fun _l => getBreakpointsLine _l)

/-- Specification-side description: `j` starts a space-separated run of
non-space characters (`saw` tells whether position 0 counts as preceded by
a space). -/
def isRunStart (saw : Bool) (l : List Char) (j : Nat) : Bool :=
  (l.getD j ' ' != ' ') && (if j == 0 then saw else l.getD (j - 1) ' ' == ' ')

/-- Specification-side: the zero-based column offsets of the starts of the
space-separated runs of non-space characters of a line. -/
def runStarts (l : List Char) : List Nat :=
  (List.range l.length).filter (isRunStart true l)

/-! ### Memory read handler (`SolanaDebugSession.readMemoryRequest`) -/

def base64Alphabet : List Char :=
  "ABCDEFGHIJKLMNOPQRSTUVWXYZabcdefghijklmnopqrstuvwxyz0123456789+/".data

def base64Char (n : Nat) : Char := base64Alphabet.getD n 'A'

/-- RFC 4648 base64 of a byte list (`Buffer.prototype.toString('base64')`). -/
def base64Encode : List Nat → List Char
  | [] => []
  | [a] => [base64Char (a / 4), base64Char (a % 4 * 16), '=', '=']
  | [a, b] =>
    [base64Char (a / 4), base64Char (a % 4 * 16 + b / 16), base64Char (b % 16 * 4), '=']
  | a :: b :: c :: rest =>
    base64Char (a / 4) :: base64Char (a % 4 * 16 + b / 16) ::
    base64Char (b % 16 * 4 + c / 64) :: base64Char (c % 64) :: base64Encode rest

/-- `Buffer.prototype.slice(start, end)`: the bytes `[start, end)`. -/
def jsSlice (l : List Nat) (start finish : Nat) : List Nat :=
  (l.take finish).drop start

/-- The response body built by `readMemoryRequest`. -/
structure ReadMemoryBody where
  address : List Char
  data : List Char
  unreadableBytes : Int
deriving DecidableEq, Repr

/-- `SolanaDebugSession.readMemoryRequest`: note the source passes
`offset, count` straight to `Buffer.slice`, whose second argument is an END
index, while computing `unreadableBytes` as `length - (offset + count)`. -/
def readMemoryRequest (memory : List Nat) (offset count : Nat) : ReadMemoryBody :=
  { address := "0".data
  , data := base64Encode (jsSlice memory offset count)
  , unreadableBytes := (memory.length : Int) - (offset + count) }

/-! ### `variablesRequest` dispatch -/

/-- The `variablesRequest` arguments the handler inspects. -/
structure VariablesArguments where
  variablesReference : Nat
  filter : Option (List Char)
deriving DecidableEq, Repr

/-- Observable actions of a session handler.  `bridgeCall f` stands for
`await this.lldbRun(f, ...)`, the only place a request buffer is ever
allocated or written. -/
inductive SessionEffect where
  | sendResponse (success : Bool)
  | bridgeCall (funcName : List Char)
deriving DecidableEq, Repr

/-- Session state surrounding the handler: the bridge busy flag and the
runtime store. -/
structure SessionState where
  isRunningLldb : Bool
  runtime : SolanaRuntimeState
deriving DecidableEq, Repr

/-- `SolanaDebugSession.variablesRequest`: a `filter === "named"` request is
answered immediately with `success = false`; any other request is forwarded
to the bridge as `request_variables`. -/
def variablesRequest (s : SessionState) (args : VariablesArguments) :
    List SessionEffect × SessionState :=
  if args.filter = some "named".data then
    ([SessionEffect.sendResponse false], s)
  else
    ([SessionEffect.bridgeCall "request_variables".data], s)

/-! ### Engine bridge serialization (`SolanaDebugSession.lldbRun`)

`lldbRun` is an `async` method on the single-threaded JS event loop; its
body is a sequence of atomic segments separated by `await` points:

```
while (this._isRunningLldb) { await this._sleep(10); }   -- spin
this._isRunningLldb = true;
rxPtr  = await lldb._malloc(request.length+1);           -- s2: buffer allocated
await lldb.stringToUTF8(request, rxPtr, ...);            -- s3: request written
txPtr  = await lldb.ccall(funcName, ...);                -- s4: engine invoked
resp   = await lldb.UTF8ToString(txPtr);                 -- s5: response observed
...; sendResponse(...); await lldb._free(rxPtr);         -- s6: rx freed
await lldb._free(txPtr);                                 -- s7: tx freed
this._isRunningLldb = false;                             -- done
```

We model two concurrent invocations (tasks `true` and `false`) as a
transition system: a scheduler picks which suspended task runs its next
atomic segment.  The `idle` step models the invocation reaching its first
suspension: it checks the busy flag, and either acquires it (no `await`
separates the check from the assignment, so check-and-set is atomic) or
suspends in the sleep loop. -/

inductive LldbPc where
  | idle | spin | s2 | s3 | s4 | s5 | s6 | s7 | done
deriving DecidableEq, Repr

inductive LldbEv where
  | issued | alloc | write | invoke | readResp | freeRx | freeTx | rel
deriving DecidableEq, Repr

/-- Trace of observable bridge events, tagged by task. -/
abbrev LldbTrace := List (Bool × LldbEv)

structure LldbSt where
  isRunningLldb : Bool
  pcA : LldbPc
  pcB : LldbPc
  trace : LldbTrace
deriving DecidableEq, Repr

def pcOf (s : LldbSt) (t : Bool) : LldbPc := cond t s.pcA s.pcB

def withPc (s : LldbSt) (t : Bool) (p : LldbPc) : LldbSt :=
  cond t { s with pcA := p } { s with pcB := p }

def emitTr (s : LldbSt) (evs : LldbTrace) : LldbSt := { s with trace := s.trace ++ evs }

/-- One atomic segment of task `t` (a no-op when `t` is finished, or when it
is parked in the sleep loop and the flag is still held). -/
def lldbStep (s : LldbSt) (t : Bool) : LldbSt :=
  match pcOf s t with
  | .idle =>
    if s.isRunningLldb then emitTr (withPc s t .spin) [(t, .issued)]
    else emitTr (withPc { s with isRunningLldb := true } t .s2) [(t, .issued), (t, .alloc)]
  | .spin =>
    if s.isRunningLldb then s
    else emitTr (withPc { s with isRunningLldb := true } t .s2) [(t, .alloc)]
  | .s2 => emitTr (withPc s t .s3) [(t, .write)]
  | .s3 => emitTr (withPc s t .s4) [(t, .invoke)]
  | .s4 => emitTr (withPc s t .s5) [(t, .readResp)]
  | .s5 => emitTr (withPc s t .s6) [(t, .freeRx)]
  | .s6 => emitTr (withPc s t .s7) [(t, .freeTx)]
  | .s7 => emitTr (withPc { s with isRunningLldb := false } t .done) [(t, .rel)]
  | .done => s

def lldbInit : LldbSt := { isRunningLldb := false, pcA := .idle, pcB := .idle, trace := [] }

/-- Run a schedule (a list of task choices) from the initial state. -/
def lldbRunSched (sch : List Bool) : LldbSt := sch.foldl lldbStep lldbInit

/-- Is a program counter inside the critical section (buffers live)? -/
def inCrit : LldbPc → Bool
  | .idle => false
  | .spin => false
  | .done => false
  | _ => true

/-- The non-`issued` events a task has emitted by the time it reaches a
given program counter. -/
def emittedEvs : LldbPc → List LldbEv
  | .idle => []
  | .spin => []
  | .s2 => [.alloc]
  | .s3 => [.alloc, .write]
  | .s4 => [.alloc, .write, .invoke]
  | .s5 => [.alloc, .write, .invoke, .readResp]
  | .s6 => [.alloc, .write, .invoke, .readResp, .freeRx]
  | .s7 => [.alloc, .write, .invoke, .readResp, .freeRx, .freeTx]
  | .done => [.alloc, .write, .invoke, .readResp, .freeRx, .freeTx, .rel]

def tagEvs (t : Bool) (evs : List LldbEv) : LldbTrace := evs.map (fun e => (t, e))

def nonIssued (e : Bool × LldbEv) : Bool := e.2 != .issued

/-- Index of the first occurrence of `a` in `l` (`l.length` when absent). -/
def idxOfEv (l : LldbTrace) (a : Bool × LldbEv) : Nat :=
  match l with
  | [] => 0
  | b :: rest => if b = a then 0 else idxOfEv rest a + 1

/-- `a` occurs in `l` strictly before (the first occurrence of) `b`. -/
def Before (l : LldbTrace) (a b : Bool × LldbEv) : Prop :=
  b ∈ l ∧ idxOfEv l a < idxOfEv l b

instance (l : LldbTrace) (a b : Bool × LldbEv) : Decidable (Before l a b) :=
  inferInstanceAs (Decidable (b ∈ l ∧ idxOfEv l a < idxOfEv l b))

/-- The inductive invariant of the bridge model: (0) mutual exclusion,
(1) the busy flag is exactly "some task is in the critical section",
(2) a task is unstarted iff it has no `issued` event, (3) the non-`issued`
events form two per-task blocks, the second block nonempty only once the
first task has fully finished, (4) a nonempty trace starts with a task
issuing and immediately acquiring. -/
def LldbInv (s : LldbSt) : Prop :=
  (∀ u : Bool, ¬(inCrit (pcOf s u) = true ∧ inCrit (pcOf s (!u)) = true))
  ∧ (∀ u : Bool, s.isRunningLldb = false → inCrit (pcOf s u) = false)
  ∧ (s.isRunningLldb = true → ∃ u : Bool, inCrit (pcOf s u) = true)
  ∧ (∀ t : Bool, pcOf s t = .idle ↔ (t, LldbEv.issued) ∉ s.trace)
  ∧ (∃ t1 : Bool,
      s.trace.filter nonIssued
        = tagEvs t1 (emittedEvs (pcOf s t1)) ++ tagEvs (!t1) (emittedEvs (pcOf s (!t1)))
      ∧ (emittedEvs (pcOf s (!t1)) ≠ [] → pcOf s t1 = .done))
  ∧ (s.trace = [] ∨ ∃ t0 : Bool, s.trace.take 2 = [(t0, LldbEv.issued), (t0, LldbEv.alloc)])

/-! ## Lemmas about the JS string model -/

theorem isPrefixOf_append_right (l y : List Char) : l.isPrefixOf (l ++ y) = true := by
  induction l with
  | nil => simp [List.isPrefixOf]
  | cons c rest ih => simp [List.isPrefixOf, List.cons_append, ih]

theorem firstOcc_self_append (sep y : List Char) (h : sep ≠ []) :
    firstOcc sep (sep ++ y) = some 0 := by
  match sep, h with
  | c :: s', _ =>
    have hpre : (c :: s').isPrefixOf (c :: (s' ++ y)) = true := by
      rw [← List.cons_append]
      exact isPrefixOf_append_right _ _
    rw [List.cons_append]
    simp [firstOcc, hpre]

theorem jsSplitFueled_of_none (sep r : List Char) (h : firstOcc sep r = none) (n : Nat) :
    jsSplitFueled sep n r = [r] := by
  cases n with
  | zero => rfl
  | succ m => simp [jsSplitFueled, h]

theorem jsSplit1_eq_drop (sep l : List Char) (i : Nat)
    (h1 : firstOcc sep l = some i)
    (h2 : firstOcc sep (l.drop (i + sep.length)) = none) :
    jsSplit1 sep l = some (l.drop (i + sep.length)) := by
  unfold jsSplit1 jsSplit
  simp [jsSplitFueled, h1, jsSplitFueled_of_none _ _ h2]

theorem substringAfter_of_firstOcc (sep l : List Char) (i : Nat)
    (h : firstOcc sep l = some i) :
    substringAfter sep l = l.drop (i + sep.length) := by
  unfold substringAfter
  rw [h]

theorem jsSplit1_substringAfter (sep l : List Char)
    (h1 : jsIncludes sep l = true)
    (h2 : jsIncludes sep (substringAfter sep l) = false) :
    jsSplit1 sep l = some (substringAfter sep l) := by
  unfold jsIncludes at h1 h2
  obtain ⟨i, hi⟩ := Option.isSome_iff_exists.mp h1
  have hsub : substringAfter sep l = l.drop (i + sep.length) :=
    substringAfter_of_firstOcc sep l i hi
  rw [hsub] at h2 ⊢
  apply jsSplit1_eq_drop _ _ _ hi
  cases hfo : firstOcc sep (l.drop (i + sep.length)) with
  | none => rfl
  | some j => rw [hfo] at h2; simp at h2

theorem jsIncludes_self_append (sep y : List Char) (h : sep ≠ []) :
    jsIncludes sep (sep ++ y) = true := by
  simp [jsIncludes, firstOcc_self_append sep y h]

theorem jsSplit1_self_append (sep y : List Char) (hsep : sep ≠ [])
    (hy : jsIncludes sep y = false) :
    jsSplit1 sep (sep ++ y) = some y := by
  have h0 : firstOcc sep (sep ++ y) = some 0 := firstOcc_self_append sep y hsep
  have hdrop : (sep ++ y).drop (0 + sep.length) = y := by
    rw [Nat.zero_add, List.drop_left]
  have := jsSplit1_eq_drop sep (sep ++ y) 0 h0 (by
    rw [hdrop]
    cases hfo : firstOcc sep y with
    | none => rfl
    | some j => unfold jsIncludes at hy; rw [hfo] at hy; simp at hy)
  rw [hdrop] at this
  exact this

/-- How the session-side forward translation evaluates on an SDK-category
editor path. -/
theorem toEnginePath_sdk (p r rem : List Char)
    (h1 : jsSplit1 codeMarker p = some r)
    (h2 : jsIncludes sdkMarker r = true)
    (h3 : jsSplit1 sdkProgramMarker r = some rem) :
    toEnginePath (some p) = homeHomeMarker ++ rem := by
  unfold toEnginePath
  rw [Option.some_bind, h1]
  simp [h2, h3, jsStrPlus]

/-- How the reverse translation evaluates on an engine path of the
`home/home/` category. -/
theorem toEditorPath_sdk (rem : List Char)
    (h : jsIncludes homeHomeMarker rem = false) :
    toEditorPath (some (homeHomeMarker ++ rem)) = solSdkPath ++ rem := by
  have hne : homeHomeMarker ≠ [] := by decide
  have hinc := jsIncludes_self_append homeHomeMarker rem hne
  have hsplit := jsSplit1_self_append homeHomeMarker rem hne h
  unfold toEditorPath
  simp [hinc, hsplit, jsStrPlus]

/-- C1: for an editor path of the SDK category (it lies under a `code/`
root, its root-relative part `r` contains `sdk`, and splitting `r` at
`sdk/program/` yields the sdk-relative remainder `rem`, itself free of the
`home/home/` marker), translating forward with `toEnginePath` (as
`setBreakPointsRequest` does) and then backward with `toEditorPath` (as
`lldbRun` does on stack-trace responses) yields exactly the SDK prefix
`solSdkPath` concatenated with the remainder `rem` — the SDK-prefixed
reconstruction.  The law is scoped to this category, not a general
inverse. -/
theorem toEnginePath_toEditorPath_roundtrip (p r rem : List Char)
    (h1 : jsSplit1 codeMarker p = some r)
    (h2 : jsIncludes sdkMarker r = true)
    (h3 : jsSplit1 sdkProgramMarker r = some rem)
    (h4 : jsIncludes homeHomeMarker rem = false) :
    toEditorPath (some (toEnginePath (some p))) = solSdkPath ++ rem := by
  rw [toEnginePath_sdk p r rem h1 h2 h3, toEditorPath_sdk rem h4]

/-- Witness for C1 at the concrete editor path
`/home/wj/temp/test_theia/debug-test/code/sdk/program/src/lib.rs`. -/
theorem toEnginePath_toEditorPath_roundtrip_witness :
    (jsSplit1 codeMarker "/home/wj/temp/test_theia/debug-test/code/sdk/program/src/lib.rs".data
        = some "sdk/program/src/lib.rs".data
      ∧ jsIncludes sdkMarker "sdk/program/src/lib.rs".data = true
      ∧ jsSplit1 sdkProgramMarker "sdk/program/src/lib.rs".data = some "src/lib.rs".data
      ∧ jsIncludes homeHomeMarker "src/lib.rs".data = false)
    ∧ toEditorPath (some (toEnginePath
        (some "/home/wj/temp/test_theia/debug-test/code/sdk/program/src/lib.rs".data)))
      = solSdkPath ++ "src/lib.rs".data :=
  ⟨⟨by decide, by decide, by decide, by decide⟩,
   toEnginePath_toEditorPath_roundtrip
     "/home/wj/temp/test_theia/debug-test/code/sdk/program/src/lib.rs".data
     "sdk/program/src/lib.rs".data "src/lib.rs".data
     (by decide) (by decide) (by decide) (by decide)⟩

/-- C3: at the SDK-category editor path
`/home/wj/temp/test_theia/debug-test/code/sdk/program/src/lib.rs`, the
runtime-side forward translation (`SolanaRuntime.setBreakPoint`, which
writes `'home/home/' + lldbPath.split('sdk/program/')` with no `[1]`
index) produces `home/home/,src/lib.rs` — the comma-joined split array —
while the session-side translation (`setBreakPointsRequest`, which has the
`[1]`) produces `home/home/src/lib.rs` as the claim states; the two
disagree, so the claim fails for the runtime-side code. -/
theorem setBreakPoint_sdk_path_bug :
    setBreakPointLldbPath
        "/home/wj/temp/test_theia/debug-test/code/sdk/program/src/lib.rs".data
      = some "home/home/,src/lib.rs".data
    ∧ toEnginePath
        (some "/home/wj/temp/test_theia/debug-test/code/sdk/program/src/lib.rs".data)
      = "home/home/src/lib.rs".data
    ∧ "home/home/,src/lib.rs".data ≠ "home/home/src/lib.rs".data :=
  ⟨by decide, by decide, by decide⟩

/-- C6: at a ten-byte backing buffer with `offset = 2`, `count = 3`, the
handler base64-encodes the single byte slice `[2, 3)` (because the source
passes `count` as `Buffer.slice`'s END index), not the three bytes
`[2, 2+3)` the claim describes, while its own `unreadableBytes` field
(`length - (offset + count) = 5`) presumes three bytes were read. -/
theorem readMemory_slice_bug :
    (readMemoryRequest [10, 11, 12, 13, 14, 15, 16, 17, 18, 19] 2 3).data
      = base64Encode (([10, 11, 12, 13, 14, 15, 16, 17, 18, 19] : List Nat).drop 2 |>.take 1)
    ∧ (readMemoryRequest [10, 11, 12, 13, 14, 15, 16, 17, 18, 19] 2 3).data
      ≠ base64Encode (([10, 11, 12, 13, 14, 15, 16, 17, 18, 19] : List Nat).drop 2 |>.take 3)
    ∧ (readMemoryRequest [10, 11, 12, 13, 14, 15, 16, 17, 18, 19] 2 3).unreadableBytes
      = (10 : Int) - (2 + 3) :=
  ⟨by decide, by decide, by decide⟩

/-- C10: a `variablesRequest` whose arguments carry `filter = "named"` is
answered immediately with `success = false`; no bridge call (hence no
request-buffer allocation or write) is performed and the session state —
busy flag and runtime store — is returned unchanged. -/
theorem variablesRequest_named_filter (s : SessionState) (args : VariablesArguments)
    (h : args.filter = some "named".data) :
    variablesRequest s args = ([SessionEffect.sendResponse false], s)
    ∧ (∀ fn, SessionEffect.bridgeCall fn ∉ (variablesRequest s args).1)
    ∧ (variablesRequest s args).2 = s := by
  have hmain : variablesRequest s args = ([SessionEffect.sendResponse false], s) := by
    unfold variablesRequest
    rw [if_pos h]
  refine ⟨hmain, ?_, by rw [hmain]⟩
  intro fn
  rw [hmain]
  simp

/-- Witness for C10 at a concrete `named`-filtered request. -/
theorem variablesRequest_named_filter_witness :
    (({ variablesReference := 7, filter := some "named".data } : VariablesArguments).filter
      = some "named".data)
    ∧ variablesRequest
        { isRunningLldb := false, runtime := initialRuntimeState }
        { variablesReference := 7, filter := some "named".data }
      = ([SessionEffect.sendResponse false],
         { isRunningLldb := false, runtime := initialRuntimeState }) :=
  ⟨rfl, (variablesRequest_named_filter
      { isRunningLldb := false, runtime := initialRuntimeState }
      { variablesReference := 7, filter := some "named".data } rfl).1⟩

/-- Index-wise description of the adjustment loop: when the loop succeeds,
each of the first `n` frames of the output is the adjustment of the
corresponding input frame. -/
theorem adjustFrames_get? (n : Nat) :
    ∀ (fs fs' : List StackFrame), adjustFrames n fs = some fs' →
      ∀ i, i < n → ∃ f, fs.get? i = some f ∧ fs'.get? i = adjustFrame f := by
  induction n with
  | zero => intro fs fs' _ i hi; exact absurd hi (Nat.not_lt_zero i)
  | succ m ih =>
    intro fs fs' h i hi
    cases fs with
    | nil => simp [adjustFrames] at h
    | cons f rest =>
      rw [adjustFrames] at h
      cases hf : adjustFrame f with
      | none => rw [hf] at h; simp at h
      | some f1 =>
        cases hr : adjustFrames m rest with
        | none => rw [hf, hr] at h; simp at h
        | some rest' =>
          rw [hf, hr] at h
          simp at h
          subst h
          cases i with
          | zero => exact ⟨f, rfl, by simp [hf]⟩
          | succ j =>
            obtain ⟨g, hg1, hg2⟩ := ih rest rest' hr j (Nat.lt_of_succ_lt_succ hi)
            exact ⟨g, by simpa using hg1, by simpa using hg2⟩

/-- C4: in a stack-trace response adjusted by `lldbRun`, every frame whose
source has no source reference and whose path `p` contains `home/home/`
(with the part after the first marker itself free of the marker) gets its
path rewritten to the fixed SDK prefix `solSdkPath` concatenated with the
substring of `p` after `home/home/`. -/
theorem stackTrace_sdk_path_rewrite
    (b b' : StackTraceBody) (i : Nat) (f : StackFrame) (src : Source) (p : List Char)
    (hadj : lldbRunAdjustStackTrace b = some b')
    (hi : i < b.totalFrames.getD 0)
    (hf : b.stackFrames.get? i = some f)
    (hsrc : f.source = some src)
    (href : src.sourceReference = none)
    (hp : src.path = some p)
    (hcont : jsIncludes homeHomeMarker p = true)
    (honce : jsIncludes homeHomeMarker (substringAfter homeHomeMarker p) = false) :
    b'.stackFrames.get? i
      = some { f with source := some { src with
          path := some (solSdkPath ++ substringAfter homeHomeMarker p) } } := by
  unfold lldbRunAdjustStackTrace at hadj
  cases hfs : adjustFrames (b.totalFrames.getD 0) b.stackFrames with
  | none => rw [hfs] at hadj; simp at hadj
  | some fs' =>
    rw [hfs] at hadj
    simp at hadj
    obtain ⟨g, hg1, hg2⟩ := adjustFrames_get? _ _ _ hfs i hi
    rw [hf] at hg1
    injection hg1 with hg1
    subst hg1
    have heditor : toEditorPath (some p) = solSdkPath ++ substringAfter homeHomeMarker p := by
      unfold toEditorPath
      simp [hcont, jsSplit1_substringAfter homeHomeMarker p hcont honce, jsStrPlus]
    have hframe : adjustFrame f = some { f with source := some { src with
        path := some (solSdkPath ++ substringAfter homeHomeMarker p) } } := by
      unfold adjustFrame
      rw [hsrc]
      simp only [href, hp, heditor]
    rw [← hadj]
    simp only []
    rw [hg2, hframe]

/-- Witness for C4: the claim's concrete example, a frame whose source path
is `home/home/sdk/program/src/entrypoint.rs`, rewritten to the SDK prefix
followed by `sdk/program/src/entrypoint.rs`. -/
theorem stackTrace_sdk_path_rewrite_witness :
    lldbRunAdjustStackTrace {
        stackFrames := [{
          name := "entry".data,
          source := some {
            name := none,
            path := some "home/home/sdk/program/src/entrypoint.rs".data,
            sourceReference := none } }],
        totalFrames := some 1 }
      = some {
          stackFrames := [{
            name := "entry".data,
            source := some {
              name := none,
              path := some "/home/wj/temp/test_theia/debug-test/code/sdk/program/sdk/program/src/entrypoint.rs".data,
              sourceReference := none } }],
          totalFrames := some 1 }
    ∧ ({
        stackFrames := [{
          name := "entry".data,
          source := some {
            name := none,
            path := some "/home/wj/temp/test_theia/debug-test/code/sdk/program/sdk/program/src/entrypoint.rs".data,
            sourceReference := none } }],
        totalFrames := some 1 } : StackTraceBody).stackFrames.get? 0
      = some {
          name := "entry".data,
          source := some {
            name := none,
            path := some (solSdkPath ++
              substringAfter homeHomeMarker "home/home/sdk/program/src/entrypoint.rs".data),
            sourceReference := none } } :=
  ⟨by decide,
   stackTrace_sdk_path_rewrite
     {
       stackFrames := [{
         name := "entry".data,
         source := some {
           name := none,
           path := some "home/home/sdk/program/src/entrypoint.rs".data,
           sourceReference := none } }],
       totalFrames := some 1 }
     {
       stackFrames := [{
         name := "entry".data,
         source := some {
           name := none,
           path := some "/home/wj/temp/test_theia/debug-test/code/sdk/program/sdk/program/src/entrypoint.rs".data,
           sourceReference := none } }],
       totalFrames := some 1 }
     0
     {
       name := "entry".data,
       source := some {
         name := none,
         path := some "home/home/sdk/program/src/entrypoint.rs".data,
         sourceReference := none } }
     {
       name := none,
       path := some "home/home/sdk/program/src/entrypoint.rs".data,
       sourceReference := none }
     "home/home/sdk/program/src/entrypoint.rs".data
     (by decide) (by decide) (by decide) (by decide) (by decide) (by decide)
     (by decide) (by decide)⟩

/-- C9: in a stack-trace response adjusted by `lldbRun`, a frame whose
source carries a source reference is exempt from path rewriting: its
source path field is left exactly as it was, and only the source's display
name is set to the frame's own name. -/
theorem stackTrace_source_reference_skip
    (b b' : StackTraceBody) (i : Nat) (f : StackFrame) (src : Source) (ref : Nat)
    (hadj : lldbRunAdjustStackTrace b = some b')
    (hi : i < b.totalFrames.getD 0)
    (hf : b.stackFrames.get? i = some f)
    (hsrc : f.source = some src)
    (href : src.sourceReference = some ref) :
    b'.stackFrames.get? i
      = some { f with source := some { src with name := some f.name } } := by
  unfold lldbRunAdjustStackTrace at hadj
  cases hfs : adjustFrames (b.totalFrames.getD 0) b.stackFrames with
  | none => rw [hfs] at hadj; simp at hadj
  | some fs' =>
    rw [hfs] at hadj
    simp at hadj
    obtain ⟨g, hg1, hg2⟩ := adjustFrames_get? _ _ _ hfs i hi
    rw [hf] at hg1
    injection hg1 with hg1
    subst hg1
    have hframe : adjustFrame f
        = some { f with source := some { src with name := some f.name } } := by
      unfold adjustFrame
      rw [hsrc]
      simp only [href]
    rw [← hadj]
    simp only []
    rw [hg2, hframe]

/-- Witness for C9 at a concrete frame with `sourceReference = 42`: the
path survives unchanged, the display name becomes the frame name. -/
theorem stackTrace_source_reference_skip_witness :
    lldbRunAdjustStackTrace {
        stackFrames := [{
          name := "frameName".data,
          source := some {
            name := some "old".data,
            path := some "home/home/whatever.rs".data,
            sourceReference := some 42 } }],
        totalFrames := some 1 }
      = some {
          stackFrames := [{
            name := "frameName".data,
            source := some {
              name := some "frameName".data,
              path := some "home/home/whatever.rs".data,
              sourceReference := some 42 } }],
          totalFrames := some 1 }
    ∧ ({
        stackFrames := [{
          name := "frameName".data,
          source := some {
            name := some "frameName".data,
            path := some "home/home/whatever.rs".data,
            sourceReference := some 42 } }],
        totalFrames := some 1 } : StackTraceBody).stackFrames.get? 0
      = some {
          name := "frameName".data,
          source := some {
            name := some "frameName".data,
            path := some "home/home/whatever.rs".data,
            sourceReference := some 42 } } :=
  ⟨by decide,
   stackTrace_source_reference_skip
     {
       stackFrames := [{
         name := "frameName".data,
         source := some {
           name := some "old".data,
           path := some "home/home/whatever.rs".data,
           sourceReference := some 42 } }],
       totalFrames := some 1 }
     {
       stackFrames := [{
         name := "frameName".data,
         source := some {
           name := some "frameName".data,
           path := some "home/home/whatever.rs".data,
           sourceReference := some 42 } }],
       totalFrames := some 1 }
     0
     {
       name := "frameName".data,
       source := some {
         name := some "old".data,
         path := some "home/home/whatever.rs".data,
         sourceReference := some 42 } }
     {
       name := some "old".data,
       path := some "home/home/whatever.rs".data,
       sourceReference := some 42 }
     42
     (by decide) (by decide) (by decide) (by decide) (by decide)⟩

theorem isRunStart_zero (saw : Bool) (c : Char) (rest : List Char) :
    isRunStart saw (c :: rest) 0 = ((c != ' ') && saw) := by
  simp [isRunStart]

theorem isRunStart_succ (saw : Bool) (c : Char) (rest : List Char) (j : Nat) :
    isRunStart saw (c :: rest) (j + 1) = isRunStart (c == ' ') rest j := by
  cases j with
  | zero => simp [isRunStart]
  | succ k => simp [isRunStart]

theorem filter_map_succ (p : Nat → Bool) (l : List Nat) :
    (l.map Nat.succ).filter p = (l.filter (fun j => p (j + 1))).map Nat.succ := by
  induction l with
  | nil => rfl
  | cons a l ih =>
    simp only [List.map_cons, List.filter_cons, Nat.succ_eq_add_one, ih]
    cases hpa : p (a + 1) <;> simp

/-- The `getBreakpoints` scanning loop equals the run-start filter (shifted
by the running base index `i`). -/
theorem scanFrom_eq (l : List Char) : ∀ (i : Nat) (saw : Bool),
    scanFrom l i saw
      = ((List.range l.length).filter (isRunStart saw l)).map (fun j => j + i) := by
  induction l with
  | nil => intro i saw; simp [scanFrom]
  | cons c rest ih =>
    intro i saw
    have hshift : ((List.map Nat.succ (List.range rest.length)).filter
          (isRunStart saw (c :: rest))).map (fun j => j + i)
        = ((List.range rest.length).filter (isRunStart (c == ' ') rest)).map
            (fun j => j + (i + 1)) := by
      rw [List.filter_map]
      have hcongr : (List.range rest.length).filter (isRunStart saw (c :: rest) ∘ Nat.succ)
          = (List.range rest.length).filter (isRunStart (c == ' ') rest) := by
        apply List.filter_congr
        intro j _
        simpa [Function.comp, Nat.succ_eq_add_one] using isRunStart_succ saw c rest j
      rw [hcongr, List.map_map]
      apply List.map_congr_left
      intro a _
      simp [Function.comp, Nat.succ_eq_add_one]
      omega
    rw [List.length_cons, List.range_succ_eq_map, List.filter_cons]
    by_cases hc : c = ' '
    · subst hc
      have h0 : isRunStart saw (' ' :: rest) 0 = false := by
        rw [isRunStart_zero]; simp
      rw [h0]
      simp only [Bool.false_eq_true, if_false]
      show scanFrom (' ' :: rest) i saw = _
      rw [scanFrom]
      simp only [ne_eq, not_true_eq_false, if_false, ite_false]
      rw [ih (i + 1) true, hshift]
      simp
    · cases saw with
      | true =>
        have h0 : isRunStart true (c :: rest) 0 = true := by
          rw [isRunStart_zero]; simp [hc]
        rw [h0]
        simp only [if_true]
        show scanFrom (c :: rest) i true = _
        rw [scanFrom]
        simp only [ne_eq, hc, not_false_eq_true, if_true, ite_true]
        rw [ih (i + 1) false, List.map_cons, hshift]
        simp [show (c == ' ') = false by simp [hc]]
      | false =>
        have h0 : isRunStart false (c :: rest) 0 = false := by
          rw [isRunStart_zero]; simp
        rw [h0]
        simp only [Bool.false_eq_true, if_false]
        show scanFrom (c :: rest) i false = _
        rw [scanFrom]
        simp only [ne_eq, hc, not_false_eq_true, if_true, ite_false]
        rw [ih (i + 1) false, hshift]
        simp [show (c == ' ') = false by simp [hc]]

/-- C8: `getBreakpoints` returns, for a source line, exactly the zero-based
column offsets of the starts of its space-separated runs of non-space
characters; in particular on the line text `"  mov rax, rbx"` it returns
`[2, 6, 11]`. -/
theorem getBreakpoints_run_starts :
    (∀ l : List Char, getBreakpointsLine l = runStarts l)
    ∧ getBreakpointsLine "  mov rax, rbx".data = [2, 6, 11] := by
  constructor
  · intro l
    unfold getBreakpointsLine runStarts
    rw [scanFrom_eq l 0 true]
    simp
  · decide

/-- Witness for C8 at another concrete line. -/
theorem getBreakpoints_run_starts_witness :
    getBreakpointsLine "ab  cd".data = runStarts "ab  cd".data :=
  getBreakpoints_run_starts.1 "ab  cd".data

/-! ## Breakpoint-store lemmas -/

theorem mapGet_mapSet_self (m : List (List Char × List ISolanaBreakpoint))
    (k : List Char) (v : List ISolanaBreakpoint) :
    mapGet (mapSet m k v) k = some v := by
  induction m with
  | nil => simp [mapGet, mapSet]
  | cons kv rest ih =>
    obtain ⟨k', v'⟩ := kv
    by_cases h : k' = k
    · subst h; simp [mapGet, mapSet]
    · simp [mapGet, mapSet, h, ih]

theorem mem_mapSet (m : List (List Char × List ISolanaBreakpoint))
    (k : List Char) (v : List ISolanaBreakpoint)
    (kv : List Char × List ISolanaBreakpoint) (h : kv ∈ mapSet m k v) :
    kv.2 = v ∨ kv ∈ m := by
  induction m with
  | nil =>
    simp [mapSet] at h
    subst h; exact Or.inl rfl
  | cons kv' rest ih =>
    obtain ⟨k', v'⟩ := kv'
    by_cases hk : k' = k
    · subst hk
      simp only [mapSet, if_pos rfl] at h
      rcases List.mem_cons.mp h with h1 | h1
      · subst h1; exact Or.inl rfl
      · exact Or.inr (List.mem_cons_of_mem _ h1)
    · simp only [mapSet, if_neg hk] at h
      rcases List.mem_cons.mp h with h1 | h1
      · subst h1; exact Or.inr (List.mem_cons_self _ _)
      · rcases ih h1 with h2 | h2
        · exact Or.inl h2
        · exact Or.inr (List.mem_cons_of_mem _ h2)

theorem mem_of_mapGet (m : List (List Char × List ISolanaBreakpoint))
    (k : List Char) (v : List ISolanaBreakpoint) (h : mapGet m k = some v) :
    (k, v) ∈ m := by
  induction m with
  | nil => simp [mapGet] at h
  | cons kv rest ih =>
    obtain ⟨k', v'⟩ := kv
    by_cases hk : k' = k
    · subst hk
      have h' : v' = v := by simpa [mapGet] using h
      subst h'
      exact List.mem_cons_self _ _
    · simp only [mapGet, if_neg hk] at h
      exact List.mem_cons_of_mem _ (ih h)

/-- C5: from a store satisfying the id invariant, `setBreakPoint` returns a
breakpoint whose id is the current counter value and hence strictly greater
than the id of every breakpoint previously in the store; the record is
created `verified = false` and appended to the file's list (the
`pushBreakpoint` half); and by the time the operation completes it is
stored with `verified = true`, a `breakpointValidated` event has been
emitted for it, and the id invariant still holds. -/
theorem setBreakPoint_fresh_id_verified (s : SolanaRuntimeState)
    (path : List Char) (line : Nat) (hinv : BpIdInv s) :
    ((setBreakPoint s path line).1.id = s.breakpointId)
    ∧ (∀ kv ∈ s.breakPoints, ∀ bp ∈ kv.2, bp.id < (setBreakPoint s path line).1.id)
    ∧ (pushBreakpoint s path line).1.verified = false
    ∧ mapGet (pushBreakpoint s path line).2.breakPoints path
        = some ((mapGet s.breakPoints path).getD [] ++ [(pushBreakpoint s path line).1])
    ∧ (setBreakPoint s path line).1.verified = true
    ∧ (∃ bps, mapGet (setBreakPoint s path line).2.1.breakPoints path = some bps
        ∧ (setBreakPoint s path line).1 ∈ bps)
    ∧ RuntimeEvent.breakpointValidated (setBreakPoint s path line).1
        ∈ (setBreakPoint s path line).2.2
    ∧ BpIdInv (setBreakPoint s path line).2.1 := by
  have hpush1 : (pushBreakpoint s path line).1
      = { id := s.breakpointId, line := line, verified := false } := rfl
  have hpushBps : (pushBreakpoint s path line).2.breakPoints
      = mapSet s.breakPoints path ((mapGet s.breakPoints path).getD []
          ++ [({ id := s.breakpointId, line := line, verified := false } : ISolanaBreakpoint)]) :=
    rfl
  have hpushGet : mapGet (pushBreakpoint s path line).2.breakPoints path
      = some ((mapGet s.breakPoints path).getD []
          ++ [({ id := s.breakpointId, line := line, verified := false } : ISolanaBreakpoint)]) := by
    rw [hpushBps]
    exact mapGet_mapSet_self _ _ _
  have hold : ∀ bp ∈ (mapGet s.breakPoints path).getD [], bp.id < s.breakpointId := by
    cases hg : mapGet s.breakPoints path with
    | none => intro bp hbp; simp at hbp
    | some v =>
      intro bp hbp
      exact hinv (path, v) (mem_of_mapGet _ _ _ hg) bp (by simpa using hbp)
  have hverify1 : (verifyBreakpoints (pushBreakpoint s path line).2 path).1
      = { breakPoints := mapSet (pushBreakpoint s path line).2.breakPoints path
            (((mapGet s.breakPoints path).getD []
              ++ [({ id := s.breakpointId, line := line, verified := false } : ISolanaBreakpoint)]).map
              (fun bp => { bp with verified := true })),
          breakpointId := s.breakpointId + 1 } := by
    unfold verifyBreakpoints
    rw [hpushGet]
    rfl
  have hverify2 : (verifyBreakpoints (pushBreakpoint s path line).2 path).2
      = (((mapGet s.breakPoints path).getD []
          ++ [({ id := s.breakpointId, line := line, verified := false } : ISolanaBreakpoint)]).map
          (fun bp => { bp with verified := true })).map RuntimeEvent.breakpointValidated := by
    unfold verifyBreakpoints
    rw [hpushGet]
  have hret : (setBreakPoint s path line).1
      = { id := s.breakpointId, line := line, verified := true } := rfl
  have hstate : (setBreakPoint s path line).2.1
      = (verifyBreakpoints (pushBreakpoint s path line).2 path).1 := rfl
  have hevsEq : (setBreakPoint s path line).2.2
      = (verifyBreakpoints (pushBreakpoint s path line).2 path).2 := rfl
  have hmemVer : ({ id := s.breakpointId, line := line, verified := true } : ISolanaBreakpoint)
      ∈ (((mapGet s.breakPoints path).getD []
          ++ [({ id := s.breakpointId, line := line, verified := false } : ISolanaBreakpoint)]).map
          (fun bp => { bp with verified := true })) := by
    exact List.mem_map.mpr
      ⟨{ id := s.breakpointId, line := line, verified := false },
       List.mem_append_right _ (List.mem_singleton.mpr rfl), rfl⟩
  refine ⟨by rw [hret], ?_, by rw [hpush1], by rw [hpushGet, hpush1], by rw [hret],
          ?_, ?_, ?_⟩
  · intro kv hkv bp hbp
    rw [hret]
    exact hinv kv hkv bp hbp
  · refine ⟨(((mapGet s.breakPoints path).getD []
        ++ [({ id := s.breakpointId, line := line, verified := false } : ISolanaBreakpoint)]).map
        (fun bp => { bp with verified := true })), ?_, ?_⟩
    · rw [hstate, hverify1]
      exact mapGet_mapSet_self _ _ _
    · rw [hret]
      exact hmemVer
  · rw [hevsEq, hverify2, hret]
    exact List.mem_map_of_mem _ hmemVer
  · intro kv hkv bp hbp
    have hc2 : (setBreakPoint s path line).2.1.breakpointId = s.breakpointId + 1 := by
      rw [hstate, hverify1]
    rw [hc2]
    rw [hstate, hverify1] at hkv
    rcases mem_mapSet _ _ _ _ hkv with h2 | h2
    · rw [h2] at hbp
      rcases List.mem_map.mp hbp with ⟨bp0, hbp0, rfl⟩
      rcases List.mem_append.mp hbp0 with h3 | h3
      · exact Nat.lt_succ_of_lt (hold bp0 h3)
      · have hb : bp0 = { id := s.breakpointId, line := line, verified := false } := by
          simpa using h3
        subst hb
        exact Nat.lt_succ_self _
    · rw [hpushBps] at h2
      rcases mem_mapSet _ _ _ _ h2 with h3 | h3
      · rw [h3] at hbp
        rcases List.mem_append.mp hbp with h4 | h4
        · exact Nat.lt_succ_of_lt (hold bp h4)
        · have hb : bp = { id := s.breakpointId, line := line, verified := false } := by
            simpa using h4
          subst hb
          exact Nat.lt_succ_self _
      · exact Nat.lt_succ_of_lt (hinv kv h3 bp hbp)

/-- Witness for C5 from the constructor state. -/
theorem setBreakPoint_fresh_id_verified_witness :
    BpIdInv initialRuntimeState
    ∧ (setBreakPoint initialRuntimeState "a.rs".data 5).1.id
        = initialRuntimeState.breakpointId
    ∧ RuntimeEvent.breakpointValidated (setBreakPoint initialRuntimeState "a.rs".data 5).1
        ∈ (setBreakPoint initialRuntimeState "a.rs".data 5).2.2 := by
  have hinv0 : BpIdInv initialRuntimeState := by
    intro kv hkv bp hbp
    simp [initialRuntimeState] at hkv
  exact ⟨hinv0,
    (setBreakPoint_fresh_id_verified initialRuntimeState "a.rs".data 5 hinv0).1,
    (setBreakPoint_fresh_id_verified initialRuntimeState "a.rs".data 5 hinv0).2.2.2.2.2.2.1⟩

/-- `findIndex` over a list whose prefix all fails the test and whose last
element passes finds exactly the last position. -/
theorem findIdx?_append_last (p : ISolanaBreakpoint → Bool)
    (l : List ISolanaBreakpoint) (y : ISolanaBreakpoint)
    (hl : ∀ x ∈ l, p x = false) (hy : p y = true) :
    ∀ i, List.findIdx? p (l ++ [y]) i = some (i + l.length) := by
  induction l with
  | nil => intro i; simp [List.findIdx?_cons, hy]
  | cons x rest ih =>
    intro i
    have hx : p x = false := hl x (List.mem_cons_self _ _)
    rw [List.cons_append, List.findIdx?_cons, hx]
    simp only [Bool.false_eq_true, if_false]
    rw [ih (fun z hz => hl z (List.mem_cons_of_mem _ hz)) (i + 1)]
    congr 1
    simp [List.length_cons]
    omega

/-- `splice(n, 1)` on `l ++ [y]` at `n = l.length` gives back `l`. -/
theorem eraseIdx_append_length (l : List ISolanaBreakpoint) (y : ISolanaBreakpoint) :
    (l ++ [y]).eraseIdx l.length = l := by
  rw [List.eraseIdx_append_of_length_le (Nat.le_refl _)]
  simp

/-- C7: starting from any store with no breakpoint on line 5 of `a.rs`,
`setBreakPoint("a.rs", 5)` followed by `clearBreakPoint("a.rs", 5)` returns
exactly the just-created breakpoint record (with `line = 5`), and the store
afterwards again holds no line-5 breakpoint for `a.rs` (the file's list is
back to the prior breakpoints, now verified), so the cleared breakpoint
cannot appear in any subsequent `getBreakpoints` result — indeed
`getBreakpoints` never reads the store at all. -/
theorem set_then_clear_breakpoint (s : SolanaRuntimeState)
    (hno : ∀ bp ∈ (mapGet s.breakPoints "a.rs".data).getD [], bp.line ≠ 5) :
    ((clearBreakPoint (setBreakPoint s "a.rs".data 5).2.1 "a.rs".data 5).1
        = some { id := s.breakpointId, line := 5, verified := true })
    ∧ (mapGet (clearBreakPoint (setBreakPoint s "a.rs".data 5).2.1 "a.rs".data 5).2.breakPoints
          "a.rs".data
        = some (((mapGet s.breakPoints "a.rs".data).getD []).map
            (fun bp => { bp with verified := true })))
    ∧ (∀ bp ∈ (mapGet
          (clearBreakPoint (setBreakPoint s "a.rs".data 5).2.1 "a.rs".data 5).2.breakPoints
          "a.rs".data).getD [], bp.line ≠ 5) := by
  have hpushBps : (pushBreakpoint s "a.rs".data 5).2.breakPoints
      = mapSet s.breakPoints "a.rs".data ((mapGet s.breakPoints "a.rs".data).getD []
          ++ [({ id := s.breakpointId, line := 5, verified := false } : ISolanaBreakpoint)]) :=
    rfl
  have hpushGet : mapGet (pushBreakpoint s "a.rs".data 5).2.breakPoints "a.rs".data
      = some ((mapGet s.breakPoints "a.rs".data).getD []
          ++ [({ id := s.breakpointId, line := 5, verified := false } : ISolanaBreakpoint)]) := by
    rw [hpushBps]
    exact mapGet_mapSet_self _ _ _
  have hverify1 : (verifyBreakpoints (pushBreakpoint s "a.rs".data 5).2 "a.rs".data).1
      = { breakPoints := mapSet (pushBreakpoint s "a.rs".data 5).2.breakPoints "a.rs".data
            (((mapGet s.breakPoints "a.rs".data).getD []
              ++ [({ id := s.breakpointId, line := 5, verified := false } : ISolanaBreakpoint)]).map
              (fun bp => { bp with verified := true })),
          breakpointId := s.breakpointId + 1 } := by
    unfold verifyBreakpoints
    rw [hpushGet]
    rfl
  have hstate : (setBreakPoint s "a.rs".data 5).2.1
      = (verifyBreakpoints (pushBreakpoint s "a.rs".data 5).2 "a.rs".data).1 := rfl
  have hmap : (((mapGet s.breakPoints "a.rs".data).getD []
        ++ [({ id := s.breakpointId, line := 5, verified := false } : ISolanaBreakpoint)]).map
        (fun bp => { bp with verified := true }))
      = ((mapGet s.breakPoints "a.rs".data).getD []).map (fun bp => { bp with verified := true })
        ++ [({ id := s.breakpointId, line := 5, verified := true } : ISolanaBreakpoint)] := by
    rw [List.map_append]
    rfl
  have hbps2 : (setBreakPoint s "a.rs".data 5).2.1.breakPoints
      = mapSet (pushBreakpoint s "a.rs".data 5).2.breakPoints "a.rs".data
          (((mapGet s.breakPoints "a.rs".data).getD []
            ++ [({ id := s.breakpointId, line := 5, verified := false } : ISolanaBreakpoint)]).map
            (fun bp => { bp with verified := true })) := by
    rw [hstate, hverify1]
  have hget2 : mapGet (setBreakPoint s "a.rs".data 5).2.1.breakPoints "a.rs".data
      = some (((mapGet s.breakPoints "a.rs".data).getD []).map
            (fun bp => { bp with verified := true })
          ++ [({ id := s.breakpointId, line := 5, verified := true } : ISolanaBreakpoint)]) := by
    rw [hbps2, hmap]
    exact mapGet_mapSet_self _ _ _
  have hlines : ∀ x ∈ ((mapGet s.breakPoints "a.rs".data).getD []).map
      (fun bp => { bp with verified := true }), (x.line == 5) = false := by
    intro x hx
    rcases List.mem_map.mp hx with ⟨x0, hx0, rfl⟩
    simpa using hno x0 hx0
  have hfind : List.findIdx? (fun bp => bp.line == 5)
      ((((mapGet s.breakPoints "a.rs".data).getD []).map (fun bp => { bp with verified := true }))
        ++ [({ id := s.breakpointId, line := 5, verified := true } : ISolanaBreakpoint)])
      = some ((((mapGet s.breakPoints "a.rs".data).getD []).map
          (fun bp => { bp with verified := true })).length) := by
    have := findIdx?_append_last (fun bp => bp.line == 5)
      (((mapGet s.breakPoints "a.rs".data).getD []).map (fun bp => { bp with verified := true }))
      ({ id := s.breakpointId, line := 5, verified := true } : ISolanaBreakpoint)
      hlines (by simp) 0
    simpa using this
  have hclear1 : (clearBreakPoint (setBreakPoint s "a.rs".data 5).2.1 "a.rs".data 5).1
      = some { id := s.breakpointId, line := 5, verified := true } := by
    simp only [clearBreakPoint, hget2, hfind]
    rw [List.get?_concat_length]
  have hclear2 : (clearBreakPoint (setBreakPoint s "a.rs".data 5).2.1 "a.rs".data 5).2.breakPoints
      = mapSet (setBreakPoint s "a.rs".data 5).2.1.breakPoints "a.rs".data
          (((mapGet s.breakPoints "a.rs".data).getD []).map
            (fun bp => { bp with verified := true })) := by
    simp only [clearBreakPoint, hget2, hfind]
    rw [eraseIdx_append_length]
  have hgetFinal : mapGet
      (clearBreakPoint (setBreakPoint s "a.rs".data 5).2.1 "a.rs".data 5).2.breakPoints
      "a.rs".data
      = some (((mapGet s.breakPoints "a.rs".data).getD []).map
          (fun bp => { bp with verified := true })) := by
    rw [hclear2]
    exact mapGet_mapSet_self _ _ _
  refine ⟨hclear1, hgetFinal, ?_⟩
  intro bp hbp
  rw [hgetFinal] at hbp
  simp only [Option.getD_some] at hbp
  rcases List.mem_map.mp hbp with ⟨x0, hx0, rfl⟩
  simpa using hno x0 hx0

/-- Witness for C7 from the constructor state (which trivially has no
breakpoint on line 5 of `a.rs`). -/
theorem set_then_clear_breakpoint_witness :
    (∀ bp ∈ (mapGet initialRuntimeState.breakPoints "a.rs".data).getD [], bp.line ≠ 5)
    ∧ (clearBreakPoint (setBreakPoint initialRuntimeState "a.rs".data 5).2.1 "a.rs".data 5).1
        = some { id := 1, line := 5, verified := true } := by
  have hno : ∀ bp ∈ (mapGet initialRuntimeState.breakPoints "a.rs".data).getD [],
      bp.line ≠ 5 := by
    intro bp hbp
    simp [initialRuntimeState, mapGet] at hbp
  exact ⟨hno, (set_then_clear_breakpoint initialRuntimeState hno).1⟩

/-! ## Lemmas for the engine-bridge model -/

theorem not_ne_self (t : Bool) : (!t) ≠ t := by cases t <;> simp

theorem bool_cases_of (t u : Bool) : u = t ∨ u = !t := by cases t <;> cases u <;> simp

theorem pcOf_withPc_self (s : LldbSt) (t : Bool) (p : LldbPc) :
    pcOf (withPc s t p) t = p := by cases t <;> rfl

theorem pcOf_withPc_ne (s : LldbSt) (t t' : Bool) (p : LldbPc) (h : t' ≠ t) :
    pcOf (withPc s t p) t' = pcOf s t' := by
  cases t <;> cases t' <;> simp_all [withPc, pcOf]

theorem pcOf_emitTr (s : LldbSt) (evs : LldbTrace) (t : Bool) :
    pcOf (emitTr s evs) t = pcOf s t := by cases t <;> rfl

theorem pcOf_setFlag (s : LldbSt) (b : Bool) (t : Bool) :
    pcOf { s with isRunningLldb := b } t = pcOf s t := by cases t <;> rfl

theorem trace_withPc (s : LldbSt) (t : Bool) (p : LldbPc) :
    (withPc s t p).trace = s.trace := by cases t <;> rfl

theorem trace_emitTr (s : LldbSt) (evs : LldbTrace) :
    (emitTr s evs).trace = s.trace ++ evs := rfl

theorem trace_setFlag (s : LldbSt) (b : Bool) :
    ({ s with isRunningLldb := b } : LldbSt).trace = s.trace := rfl

theorem flag_withPc (s : LldbSt) (t : Bool) (p : LldbPc) :
    (withPc s t p).isRunningLldb = s.isRunningLldb := by cases t <;> rfl

theorem flag_emitTr (s : LldbSt) (evs : LldbTrace) :
    (emitTr s evs).isRunningLldb = s.isRunningLldb := rfl

theorem flag_setFlag (s : LldbSt) (b : Bool) :
    ({ s with isRunningLldb := b } : LldbSt).isRunningLldb = b := rfl

/-- The one-step successor lists of `emittedEvs`. -/
theorem emittedEvs_s3 : emittedEvs .s3 = emittedEvs .s2 ++ [.write] := rfl
theorem emittedEvs_s4 : emittedEvs .s4 = emittedEvs .s3 ++ [.invoke] := rfl
theorem emittedEvs_s5 : emittedEvs .s5 = emittedEvs .s4 ++ [.readResp] := rfl
theorem emittedEvs_s6 : emittedEvs .s6 = emittedEvs .s5 ++ [.freeRx] := rfl
theorem emittedEvs_s7 : emittedEvs .s7 = emittedEvs .s6 ++ [.freeTx] := rfl
theorem emittedEvs_done : emittedEvs .done = emittedEvs .s7 ++ [.rel] := rfl

theorem emittedEvs_nil_of_not_crit (p : LldbPc) (h1 : inCrit p = false) (h2 : p ≠ .done) :
    emittedEvs p = [] := by
  cases p <;> simp_all [inCrit, emittedEvs]

theorem tagEvs_append (t : Bool) (E1 E2 : List LldbEv) :
    tagEvs t (E1 ++ E2) = tagEvs t E1 ++ tagEvs t E2 := by
  simp [tagEvs]

theorem filter_nonIssued_issued (t : Bool) :
    List.filter nonIssued [(t, LldbEv.issued)] = [] := rfl

theorem filter_nonIssued_single (t : Bool) (e : LldbEv) (h : e ≠ .issued) :
    List.filter nonIssued [(t, e)] = [(t, e)] := by
  cases e
  case issued => exact absurd rfl h
  all_goals rfl

theorem emittedEvs_ne_nil_of_crit (p : LldbPc) (h : inCrit p = true) :
    emittedEvs p ≠ [] := by
  cases p <;> simp_all [inCrit, emittedEvs]

theorem filter_nonIssued_pair (t : Bool) :
    List.filter nonIssued [(t, LldbEv.issued), (t, LldbEv.alloc)] = [(t, LldbEv.alloc)] := rfl

theorem take2_append (tr evs : LldbTrace) (t0 : Bool)
    (h : tr.take 2 = [(t0, LldbEv.issued), (t0, LldbEv.alloc)]) :
    (tr ++ evs).take 2 = [(t0, LldbEv.issued), (t0, LldbEv.alloc)] := by
  have hlen : 2 ≤ tr.length := by
    have hl := congrArg List.length h
    rw [List.length_take] at hl
    simp at hl
    omega
  rw [List.take_append_of_le_length hlen, h]

/-- Re-establishing the two-block clause of the invariant across an
acquisition step (a suspended task seeing the flag free, setting it, and
emitting its `alloc`). -/
theorem inv_step_acquire_blocks (s S' : LldbSt) (t : Bool)
    (hInv : LldbInv s)
    (hflag : s.isRunningLldb = false)
    (hpE : emittedEvs (pcOf s t) = [])
    (pA : pcOf S' t = .s2)
    (pB : ∀ u, u ≠ t → pcOf S' u = pcOf s u)
    (hfiltr : S'.trace.filter nonIssued
        = s.trace.filter nonIssued ++ [(t, LldbEv.alloc)]) :
    ∃ t1 : Bool, S'.trace.filter nonIssued
        = tagEvs t1 (emittedEvs (pcOf S' t1)) ++ tagEvs (!t1) (emittedEvs (pcOf S' (!t1)))
      ∧ (emittedEvs (pcOf S' (!t1)) ≠ [] → pcOf S' t1 = .done) := by
  have hnt := not_ne_self t
  have hC1a := hInv.2.1
  obtain ⟨t1, hu, hside⟩ := hInv.2.2.2.2.1
  have hnc : ∀ u, inCrit (pcOf s u) = false := fun u => hC1a u hflag
  have huo : s.trace.filter nonIssued = tagEvs (!t) (emittedEvs (pcOf s (!t))) := by
    rcases bool_cases_of t t1 with h1 | h1
    · rw [h1] at hu
      rw [hpE] at hu
      simpa [tagEvs] using hu
    · rw [h1, Bool.not_not] at hu
      rw [hpE] at hu
      simpa [tagEvs] using hu
  by_cases hdone : pcOf s (!t) = .done
  · refine ⟨!t, ?_, ?_⟩
    · rw [hfiltr, huo, pB (!t) hnt, Bool.not_not, pA]
      rfl
    · intro _
      rw [pB (!t) hnt]
      exact hdone
  · have hE2 : emittedEvs (pcOf s (!t)) = [] :=
      emittedEvs_nil_of_not_crit _ (hnc (!t)) hdone
    refine ⟨t, ?_, ?_⟩
    · rw [hfiltr, huo, pA, pB (!t) hnt, hE2]
      simp [tagEvs, emittedEvs]
    · intro hne
      rw [pB (!t) hnt, hE2] at hne
      exact absurd rfl hne

/-- Re-establishing the non-flag clauses of the invariant across an
in-critical-section step (the task at `cur` emitting `ev` and advancing to
`next`). -/
theorem inv_step_crit (s S' : LldbSt) (t : Bool) (cur next : LldbPc) (ev : LldbEv)
    (hInv : LldbInv s)
    (hp : pcOf s t = cur)
    (hcur : inCrit cur = true)
    (hcurnd : cur ≠ .done)
    (hcurni : cur ≠ .idle)
    (hnextE : emittedEvs next = emittedEvs cur ++ [ev])
    (hnextni : next ≠ .idle)
    (hev : ev ≠ LldbEv.issued)
    (pA : pcOf S' t = next)
    (pB : ∀ u, u ≠ t → pcOf S' u = pcOf s u)
    (htr : S'.trace = s.trace ++ [(t, ev)]) :
    (∀ u : Bool, ¬(inCrit (pcOf S' u) = true ∧ inCrit (pcOf S' (!u)) = true))
    ∧ (∀ v : Bool, pcOf S' v = .idle ↔ (v, LldbEv.issued) ∉ S'.trace)
    ∧ (∃ t1 : Bool, S'.trace.filter nonIssued
          = tagEvs t1 (emittedEvs (pcOf S' t1)) ++ tagEvs (!t1) (emittedEvs (pcOf S' (!t1)))
        ∧ (emittedEvs (pcOf S' (!t1)) ≠ [] → pcOf S' t1 = .done))
    ∧ (S'.trace = [] ∨ ∃ t0 : Bool,
        S'.trace.take 2 = [(t0, LldbEv.issued), (t0, LldbEv.alloc)]) := by
  obtain ⟨hC0, hC1a, hC1b, hC2, ⟨t1, hu, hside⟩, hC4⟩ := hInv
  have hnt := not_ne_self t
  have hcritt : inCrit (pcOf s t) = true := by rw [hp]; exact hcur
  have hother : inCrit (pcOf s (!t)) = false := by
    cases hq : inCrit (pcOf s (!t))
    · rfl
    · exact absurd ⟨hcritt, hq⟩ (hC0 t)
  have hissued : (t, LldbEv.issued) ∈ s.trace := by
    by_contra hq
    exact hcurni (hp.symm.trans ((hC2 t).mpr hq))
  refine ⟨?_, ?_, ?_, ?_⟩
  · intro u
    rintro ⟨h1, h2⟩
    rcases bool_cases_of t u with h | h
    · rw [h, pB (!t) hnt, hother] at h2
      exact absurd h2 (by decide)
    · rw [h, pB (!t) hnt, hother] at h1
      exact absurd h1 (by decide)
  · intro v
    rcases bool_cases_of t v with h | h
    · rw [h, pA, htr]
      constructor
      · intro e; exact absurd e hnextni
      · intro hnot
        exact absurd (List.mem_append_left _ hissued) hnot
    · rw [h, pB (!t) hnt, htr, hC2 (!t)]
      constructor
      · intro hnin hmem
        rcases List.mem_append.mp hmem with hm | hm
        · exact hnin hm
        · exact absurd (congrArg Prod.fst (List.mem_singleton.mp hm)) hnt
      · intro hnin hmem
        exact hnin (List.mem_append_left _ hmem)
  · rcases bool_cases_of t t1 with h1 | h1
    · rw [h1] at hu hside
      have hE2 : emittedEvs (pcOf s (!t)) = [] := by
        by_contra hq
        exact hcurnd (hp.symm.trans (hside hq))
      refine ⟨t, ?_, ?_⟩
      · rw [htr, List.filter_append, filter_nonIssued_single t ev hev, hu, hp, hE2,
           pA, hnextE, pB (!t) hnt, hE2, tagEvs_append]
        simp [tagEvs]
      · intro hne
        rw [pB (!t) hnt, hE2] at hne
        exact absurd rfl hne
    · rw [h1] at hu hside
      rw [Bool.not_not] at hu hside
      have hdone : pcOf s (!t) = .done := by
        apply hside
        rw [hp]
        exact emittedEvs_ne_nil_of_crit cur hcur
      refine ⟨!t, ?_, ?_⟩
      · rw [htr, List.filter_append, filter_nonIssued_single t ev hev, hu, hp,
           pB (!t) hnt, Bool.not_not, pA, hnextE, tagEvs_append, List.append_assoc]
        simp [tagEvs]
      · intro _
        rw [pB (!t) hnt]
        exact hdone
  · have htne : s.trace ≠ [] := List.ne_nil_of_mem hissued
    rcases hC4 with h4 | ⟨t0, h4⟩
    · exact absurd h4 htne
    · exact Or.inr ⟨t0, by rw [htr]; exact take2_append _ _ _ h4⟩

/-- The bridge invariant is preserved by every atomic step of either task. -/
theorem lldbStep_inv (s : LldbSt) (t : Bool) (h : LldbInv s) : LldbInv (lldbStep s t) := by
  have hnt := not_ne_self t
  have hC0 := h.1
  have hC1a := h.2.1
  have hC1b := h.2.2.1
  have hC2 := h.2.2.2.1
  have hC4 := h.2.2.2.2.2
  cases hp : pcOf s t with
  | idle =>
    cases hfl : s.isRunningLldb with
    | true =>
      have pA : pcOf (lldbStep s t) t = .spin := by
        simp [lldbStep, hp, hfl, pcOf_emitTr, pcOf_withPc_self]
      have pB : ∀ u, u ≠ t → pcOf (lldbStep s t) u = pcOf s u := by
        intro u hu
        simp [lldbStep, hp, hfl, pcOf_emitTr, pcOf_withPc_ne _ _ _ _ hu]
      have htr : (lldbStep s t).trace = s.trace ++ [(t, LldbEv.issued)] := by
        simp [lldbStep, hp, hfl, trace_emitTr, trace_withPc]
      have hfl' : (lldbStep s t).isRunningLldb = s.isRunningLldb := by
        simp [lldbStep, hp, hfl, flag_emitTr, flag_withPc]
      obtain ⟨t1, hu, hside⟩ := h.2.2.2.2.1
      refine ⟨?_, ?_, ?_, ?_, ?_, ?_⟩
      · intro u
        rintro ⟨h1, h2⟩
        rcases bool_cases_of t u with he | he
        · rw [he, pA] at h1
          exact absurd h1 (by decide)
        · rw [he, Bool.not_not, pA] at h2
          exact absurd h2 (by decide)
      · intro u hf
        rw [hfl', hfl] at hf
        exact absurd hf (by decide)
      · intro _
        obtain ⟨u, hcr⟩ := hC1b hfl
        have hut : u ≠ t := by
          intro e; rw [e, hp] at hcr; exact absurd hcr (by decide)
        exact ⟨u, by rw [pB u hut]; exact hcr⟩
      · intro v
        rcases bool_cases_of t v with he | he
        · rw [he, pA, htr]
          constructor
          · intro e; exact absurd e (by decide)
          · intro hnot
            exact absurd (List.mem_append_right _ (List.mem_singleton.mpr rfl)) hnot
        · rw [he, pB (!t) hnt, htr, hC2 (!t)]
          constructor
          · intro hnin hmem
            rcases List.mem_append.mp hmem with hm | hm
            · exact hnin hm
            · exact absurd (congrArg Prod.fst (List.mem_singleton.mp hm)) hnt
          · intro hnin hmem
            exact hnin (List.mem_append_left _ hmem)
      · have hE : ∀ v : Bool, emittedEvs (pcOf (lldbStep s t) v) = emittedEvs (pcOf s v) := by
          intro v
          rcases bool_cases_of t v with he | he
          · rw [he, pA, hp]
            rfl
          · rw [he, pB (!t) hnt]
        refine ⟨t1, ?_, ?_⟩
        · rw [htr, List.filter_append, filter_nonIssued_issued, List.append_nil,
             hE t1, hE (!t1)]
          exact hu
        · intro hne
          rw [hE (!t1)] at hne
          have hd := hside hne
          rcases bool_cases_of t t1 with he | he
          · rw [he, hp] at hd
            exact absurd hd (by decide)
          · rw [he, pB (!t) hnt]
            rw [he] at hd
            exact hd
      · obtain ⟨u, hcr⟩ := hC1b hfl
        have humem : (u, LldbEv.issued) ∈ s.trace := by
          by_contra hq
          rw [(hC2 u).mpr hq] at hcr
          exact absurd hcr (by decide)
        have htne : s.trace ≠ [] := List.ne_nil_of_mem humem
        rcases hC4 with h4 | ⟨t0, h4⟩
        · exact absurd h4 htne
        · exact Or.inr ⟨t0, by rw [htr]; exact take2_append _ _ _ h4⟩
    | false =>
      have pA : pcOf (lldbStep s t) t = .s2 := by
        simp [lldbStep, hp, hfl, pcOf_emitTr, pcOf_withPc_self]
      have pB : ∀ u, u ≠ t → pcOf (lldbStep s t) u = pcOf s u := by
        intro u hu
        simp [lldbStep, hp, hfl, pcOf_emitTr, pcOf_setFlag,
          pcOf_withPc_ne _ _ _ _ hu]
      have htr : (lldbStep s t).trace
          = s.trace ++ [(t, LldbEv.issued), (t, LldbEv.alloc)] := by
        simp [lldbStep, hp, hfl, trace_emitTr, trace_withPc, trace_setFlag]
      have hfl' : (lldbStep s t).isRunningLldb = true := by
        simp [lldbStep, hp, hfl, flag_emitTr, flag_withPc, flag_setFlag]
      have hnc : ∀ u, inCrit (pcOf s u) = false := fun u => hC1a u hfl
      refine ⟨?_, ?_, ?_, ?_, ?_, ?_⟩
      · intro u
        rintro ⟨h1, h2⟩
        rcases bool_cases_of t u with he | he
        · rw [he, pB (!t) hnt, hnc (!t)] at h2
          exact absurd h2 (by decide)
        · rw [he, pB (!t) hnt, hnc (!t)] at h1
          exact absurd h1 (by decide)
      · intro u hf
        rw [hfl'] at hf
        exact absurd hf (by decide)
      · intro _
        exact ⟨t, by rw [pA]; rfl⟩
      · intro v
        rcases bool_cases_of t v with he | he
        · rw [he, pA, htr]
          constructor
          · intro e; exact absurd e (by decide)
          · intro hnot
            exact absurd (List.mem_append_right _ (List.mem_cons_self _ _)) hnot
        · rw [he, pB (!t) hnt, htr, hC2 (!t)]
          constructor
          · intro hnin hmem
            rcases List.mem_append.mp hmem with hm | hm
            · exact hnin hm
            · rcases List.mem_cons.mp hm with he2 | he2
              · exact absurd (congrArg Prod.fst he2) hnt
              · exact absurd (congrArg Prod.fst (List.mem_singleton.mp he2)) hnt
          · intro hnin hmem
            exact hnin (List.mem_append_left _ hmem)
      · exact inv_step_acquire_blocks s (lldbStep s t) t h hfl
          (by rw [hp]; rfl) pA pB
          (by rw [htr, List.filter_append, filter_nonIssued_pair])
      · rcases hC4 with h4 | ⟨t0, h4⟩
        · refine Or.inr ⟨t, ?_⟩
          rw [htr, h4]
          rfl
        · exact Or.inr ⟨t0, by rw [htr]; exact take2_append _ _ _ h4⟩
  | spin =>
    cases hfl : s.isRunningLldb with
    | true =>
      have hid : lldbStep s t = s := by simp [lldbStep, hp, hfl]
      rw [hid]
      exact h
    | false =>
      have pA : pcOf (lldbStep s t) t = .s2 := by
        simp [lldbStep, hp, hfl, pcOf_emitTr, pcOf_withPc_self]
      have pB : ∀ u, u ≠ t → pcOf (lldbStep s t) u = pcOf s u := by
        intro u hu
        simp [lldbStep, hp, hfl, pcOf_emitTr, pcOf_setFlag,
          pcOf_withPc_ne _ _ _ _ hu]
      have htr : (lldbStep s t).trace = s.trace ++ [(t, LldbEv.alloc)] := by
        simp [lldbStep, hp, hfl, trace_emitTr, trace_withPc, trace_setFlag]
      have hfl' : (lldbStep s t).isRunningLldb = true := by
        simp [lldbStep, hp, hfl, flag_emitTr, flag_withPc, flag_setFlag]
      have hnc : ∀ u, inCrit (pcOf s u) = false := fun u => hC1a u hfl
      have hissued : (t, LldbEv.issued) ∈ s.trace := by
        by_contra hq
        have := (hC2 t).mpr hq
        rw [hp] at this
        exact absurd this (by decide)
      refine ⟨?_, ?_, ?_, ?_, ?_, ?_⟩
      · intro u
        rintro ⟨h1, h2⟩
        rcases bool_cases_of t u with he | he
        · rw [he, pB (!t) hnt, hnc (!t)] at h2
          exact absurd h2 (by decide)
        · rw [he, pB (!t) hnt, hnc (!t)] at h1
          exact absurd h1 (by decide)
      · intro u hf
        rw [hfl'] at hf
        exact absurd hf (by decide)
      · intro _
        exact ⟨t, by rw [pA]; rfl⟩
      · intro v
        rcases bool_cases_of t v with he | he
        · rw [he, pA, htr]
          constructor
          · intro e; exact absurd e (by decide)
          · intro hnot
            exact absurd (List.mem_append_left _ hissued) hnot
        · rw [he, pB (!t) hnt, htr, hC2 (!t)]
          constructor
          · intro hnin hmem
            rcases List.mem_append.mp hmem with hm | hm
            · exact hnin hm
            · exact absurd (congrArg Prod.fst (List.mem_singleton.mp hm)) hnt
          · intro hnin hmem
            exact hnin (List.mem_append_left _ hmem)
      · exact inv_step_acquire_blocks s (lldbStep s t) t h hfl
          (by rw [hp]; rfl) pA pB
          (by rw [htr, List.filter_append, filter_nonIssued_single t _ (by decide)])
      · have htne : s.trace ≠ [] := List.ne_nil_of_mem hissued
        rcases hC4 with h4 | ⟨t0, h4⟩
        · exact absurd h4 htne
        · exact Or.inr ⟨t0, by rw [htr]; exact take2_append _ _ _ h4⟩
  | done =>
    have hid : lldbStep s t = s := by simp [lldbStep, hp]
    rw [hid]
    exact h
  | s2 =>
    have pA : pcOf (lldbStep s t) t = .s3 := by
      simp [lldbStep, hp, pcOf_emitTr, pcOf_withPc_self]
    have pB : ∀ u, u ≠ t → pcOf (lldbStep s t) u = pcOf s u := by
      intro u hu
      simp [lldbStep, hp, pcOf_emitTr, pcOf_withPc_ne _ _ _ _ hu]
    have htr : (lldbStep s t).trace = s.trace ++ [(t, LldbEv.write)] := by
      simp [lldbStep, hp, trace_emitTr, trace_withPc]
    have hfl' : (lldbStep s t).isRunningLldb = s.isRunningLldb := by
      simp [lldbStep, hp, flag_emitTr, flag_withPc]
    have hflT : s.isRunningLldb = true := by
      cases hq : s.isRunningLldb
      · have := hC1a t hq
        rw [hp] at this
        exact absurd this (by decide)
      · rfl
    obtain ⟨c0, c2, c3, c4⟩ := inv_step_crit s (lldbStep s t) t .s2 .s3 .write h hp
      rfl (by decide) (by decide) rfl (by decide) (by decide) pA pB htr
    exact ⟨c0,
      fun u hf => absurd (hfl'.symm.trans hf ▸ hflT) (by rw [hfl'.symm.trans hf] at hflT; exact fun _ => by cases hflT),
      fun _ => ⟨t, by rw [pA]; rfl⟩, c2, c3, c4⟩
  | s3 =>
    have pA : pcOf (lldbStep s t) t = .s4 := by
      simp [lldbStep, hp, pcOf_emitTr, pcOf_withPc_self]
    have pB : ∀ u, u ≠ t → pcOf (lldbStep s t) u = pcOf s u := by
      intro u hu
      simp [lldbStep, hp, pcOf_emitTr, pcOf_withPc_ne _ _ _ _ hu]
    have htr : (lldbStep s t).trace = s.trace ++ [(t, LldbEv.invoke)] := by
      simp [lldbStep, hp, trace_emitTr, trace_withPc]
    have hfl' : (lldbStep s t).isRunningLldb = s.isRunningLldb := by
      simp [lldbStep, hp, flag_emitTr, flag_withPc]
    have hflT : s.isRunningLldb = true := by
      cases hq : s.isRunningLldb
      · have := hC1a t hq
        rw [hp] at this
        exact absurd this (by decide)
      · rfl
    obtain ⟨c0, c2, c3, c4⟩ := inv_step_crit s (lldbStep s t) t .s3 .s4 .invoke h hp
      rfl (by decide) (by decide) rfl (by decide) (by decide) pA pB htr
    refine ⟨c0, ?_, fun _ => ⟨t, by rw [pA]; rfl⟩, c2, c3, c4⟩
    intro u hf
    rw [hfl', hflT] at hf
    exact absurd hf (by decide)
  | s4 =>
    have pA : pcOf (lldbStep s t) t = .s5 := by
      simp [lldbStep, hp, pcOf_emitTr, pcOf_withPc_self]
    have pB : ∀ u, u ≠ t → pcOf (lldbStep s t) u = pcOf s u := by
      intro u hu
      simp [lldbStep, hp, pcOf_emitTr, pcOf_withPc_ne _ _ _ _ hu]
    have htr : (lldbStep s t).trace = s.trace ++ [(t, LldbEv.readResp)] := by
      simp [lldbStep, hp, trace_emitTr, trace_withPc]
    have hfl' : (lldbStep s t).isRunningLldb = s.isRunningLldb := by
      simp [lldbStep, hp, flag_emitTr, flag_withPc]
    have hflT : s.isRunningLldb = true := by
      cases hq : s.isRunningLldb
      · have := hC1a t hq
        rw [hp] at this
        exact absurd this (by decide)
      · rfl
    obtain ⟨c0, c2, c3, c4⟩ := inv_step_crit s (lldbStep s t) t .s4 .s5 .readResp h hp
      rfl (by decide) (by decide) rfl (by decide) (by decide) pA pB htr
    refine ⟨c0, ?_, fun _ => ⟨t, by rw [pA]; rfl⟩, c2, c3, c4⟩
    intro u hf
    rw [hfl', hflT] at hf
    exact absurd hf (by decide)
  | s5 =>
    have pA : pcOf (lldbStep s t) t = .s6 := by
      simp [lldbStep, hp, pcOf_emitTr, pcOf_withPc_self]
    have pB : ∀ u, u ≠ t → pcOf (lldbStep s t) u = pcOf s u := by
      intro u hu
      simp [lldbStep, hp, pcOf_emitTr, pcOf_withPc_ne _ _ _ _ hu]
    have htr : (lldbStep s t).trace = s.trace ++ [(t, LldbEv.freeRx)] := by
      simp [lldbStep, hp, trace_emitTr, trace_withPc]
    have hfl' : (lldbStep s t).isRunningLldb = s.isRunningLldb := by
      simp [lldbStep, hp, flag_emitTr, flag_withPc]
    have hflT : s.isRunningLldb = true := by
      cases hq : s.isRunningLldb
      · have := hC1a t hq
        rw [hp] at this
        exact absurd this (by decide)
      · rfl
    obtain ⟨c0, c2, c3, c4⟩ := inv_step_crit s (lldbStep s t) t .s5 .s6 .freeRx h hp
      rfl (by decide) (by decide) rfl (by decide) (by decide) pA pB htr
    refine ⟨c0, ?_, fun _ => ⟨t, by rw [pA]; rfl⟩, c2, c3, c4⟩
    intro u hf
    rw [hfl', hflT] at hf
    exact absurd hf (by decide)
  | s6 =>
    have pA : pcOf (lldbStep s t) t = .s7 := by
      simp [lldbStep, hp, pcOf_emitTr, pcOf_withPc_self]
    have pB : ∀ u, u ≠ t → pcOf (lldbStep s t) u = pcOf s u := by
      intro u hu
      simp [lldbStep, hp, pcOf_emitTr, pcOf_withPc_ne _ _ _ _ hu]
    have htr : (lldbStep s t).trace = s.trace ++ [(t, LldbEv.freeTx)] := by
      simp [lldbStep, hp, trace_emitTr, trace_withPc]
    have hfl' : (lldbStep s t).isRunningLldb = s.isRunningLldb := by
      simp [lldbStep, hp, flag_emitTr, flag_withPc]
    have hflT : s.isRunningLldb = true := by
      cases hq : s.isRunningLldb
      · have := hC1a t hq
        rw [hp] at this
        exact absurd this (by decide)
      · rfl
    obtain ⟨c0, c2, c3, c4⟩ := inv_step_crit s (lldbStep s t) t .s6 .s7 .freeTx h hp
      rfl (by decide) (by decide) rfl (by decide) (by decide) pA pB htr
    refine ⟨c0, ?_, fun _ => ⟨t, by rw [pA]; rfl⟩, c2, c3, c4⟩
    intro u hf
    rw [hfl', hflT] at hf
    exact absurd hf (by decide)
  | s7 =>
    have pA : pcOf (lldbStep s t) t = .done := by
      simp [lldbStep, hp, pcOf_emitTr, pcOf_withPc_self, pcOf_setFlag]
    have pB : ∀ u, u ≠ t → pcOf (lldbStep s t) u = pcOf s u := by
      intro u hu
      simp [lldbStep, hp, pcOf_emitTr, pcOf_setFlag, pcOf_withPc_ne _ _ _ _ hu]
    have htr : (lldbStep s t).trace = s.trace ++ [(t, LldbEv.rel)] := by
      simp [lldbStep, hp, trace_emitTr, trace_withPc, trace_setFlag]
    have hfl' : (lldbStep s t).isRunningLldb = false := by
      simp [lldbStep, hp, flag_emitTr, flag_withPc, flag_setFlag]
    have hother : inCrit (pcOf s (!t)) = false := by
      cases hq : inCrit (pcOf s (!t))
      · rfl
      · exact absurd ⟨by rw [hp]; rfl, hq⟩ (hC0 t)
    obtain ⟨c0, c2, c3, c4⟩ := inv_step_crit s (lldbStep s t) t .s7 .done .rel h hp
      rfl (by decide) (by decide) rfl (by decide) (by decide) pA pB htr
    refine ⟨c0, ?_, ?_, c2, c3, c4⟩
    · intro u _
      rcases bool_cases_of t u with he | he
      · rw [he, pA]
        rfl
      · rw [he, pB (!t) hnt]
        exact hother
    · intro hf
      rw [hfl'] at hf
      exact absurd hf (by decide)

theorem lldbInit_inv : LldbInv lldbInit := by
  refine ⟨?_, ?_, ?_, ?_, ⟨true, ?_, ?_⟩, Or.inl rfl⟩
  · intro u
    rintro ⟨h1, _⟩
    have he : pcOf lldbInit u = .idle := by cases u <;> rfl
    rw [he] at h1
    exact absurd h1 (by decide)
  · intro u _
    have he : pcOf lldbInit u = .idle := by cases u <;> rfl
    rw [he]
    rfl
  · intro hf
    exact absurd hf (by decide)
  · intro u
    constructor
    · intro _ hmem
      exact absurd hmem (List.not_mem_nil _)
    · intro _
      cases u <;> rfl
  · rfl
  · intro hne
    exact absurd rfl hne

theorem foldl_lldbStep_inv (l : List Bool) :
    ∀ s : LldbSt, LldbInv s → LldbInv (List.foldl lldbStep s l) := by
  induction l with
  | nil => intro s hs; exact hs
  | cons a l ih => intro s hs; exact ih _ (lldbStep_inv s a hs)

theorem lldbRunSched_inv (sch : List Bool) : LldbInv (lldbRunSched sch) :=
  foldl_lldbStep_inv sch lldbInit lldbInit_inv

/-! ### First-occurrence index lemmas -/

theorem idxOfEv_cons_self (l : LldbTrace) (a : Bool × LldbEv) :
    idxOfEv (a :: l) a = 0 := by
  simp [idxOfEv]

theorem idxOfEv_cons_ne (l : LldbTrace) (a b : Bool × LldbEv) (h : b ≠ a) :
    idxOfEv (b :: l) a = idxOfEv l a + 1 := by
  simp [idxOfEv, h]

theorem idxOfEv_le_length (l : LldbTrace) (a : Bool × LldbEv) :
    idxOfEv l a ≤ l.length := by
  induction l with
  | nil => simp [idxOfEv]
  | cons b rest ih =>
    by_cases h : b = a
    · simp [idxOfEv, h]
    · rw [idxOfEv_cons_ne rest a b h, List.length_cons]
      exact Nat.add_le_add_right ih 1

theorem idxOfEv_eq_length_of_not_mem (l : LldbTrace) (a : Bool × LldbEv) (h : a ∉ l) :
    idxOfEv l a = l.length := by
  induction l with
  | nil => rfl
  | cons b rest ih =>
    have hba : b ≠ a := fun e => h (e ▸ List.mem_cons_self b rest)
    rw [idxOfEv_cons_ne _ _ _ hba, ih (fun hm => h (List.mem_cons_of_mem _ hm)),
       List.length_cons]

theorem idxOfEv_lt_length_of_mem (l : LldbTrace) (a : Bool × LldbEv) (h : a ∈ l) :
    idxOfEv l a < l.length := by
  induction l with
  | nil => exact absurd h (List.not_mem_nil _)
  | cons b rest ih =>
    by_cases hba : b = a
    · simp [idxOfEv, hba]
    · rw [idxOfEv_cons_ne _ _ _ hba, List.length_cons]
      have hm : a ∈ rest := by
        rcases List.mem_cons.mp h with he | hm
        · exact absurd he.symm hba
        · exact hm
      exact Nat.succ_lt_succ (ih hm)

theorem mem_of_idxOfEv_lt_length (l : LldbTrace) (a : Bool × LldbEv)
    (h : idxOfEv l a < l.length) : a ∈ l := by
  by_contra hq
  rw [idxOfEv_eq_length_of_not_mem l a hq] at h
  exact Nat.lt_irrefl _ h

theorem idxOfEv_append_left (l l' : LldbTrace) (a : Bool × LldbEv) (h : a ∈ l) :
    idxOfEv (l ++ l') a = idxOfEv l a := by
  induction l with
  | nil => exact absurd h (List.not_mem_nil _)
  | cons b rest ih =>
    by_cases hba : b = a
    · simp [idxOfEv, hba]
    · rw [List.cons_append, idxOfEv_cons_ne _ _ _ hba, idxOfEv_cons_ne _ _ _ hba]
      congr 1
      apply ih
      rcases List.mem_cons.mp h with he | hm
      · exact absurd he.symm hba
      · exact hm

theorem idxOfEv_append_right (l l' : LldbTrace) (a : Bool × LldbEv) (h : a ∉ l) :
    idxOfEv (l ++ l') a = l.length + idxOfEv l' a := by
  induction l with
  | nil => simp [idxOfEv]
  | cons b rest ih =>
    have hba : b ≠ a := fun e => h (e ▸ List.mem_cons_self b rest)
    rw [List.cons_append, idxOfEv_cons_ne _ _ _ hba,
       ih (fun hm => h (List.mem_cons_of_mem _ hm)), List.length_cons]
    omega

theorem before_append_blocks (l l' : LldbTrace) (a b : Bool × LldbEv)
    (ha : a ∈ l) (hbl : b ∉ l) (hb : b ∈ l') : Before (l ++ l') a b := by
  constructor
  · exact List.mem_append_right _ hb
  · rw [idxOfEv_append_left _ _ _ ha, idxOfEv_append_right _ _ _ hbl]
    have := idxOfEv_lt_length_of_mem l a ha
    omega

/-- Relative order of first occurrences of two kept events survives
filtering by `nonIssued`. -/
theorem before_filter_iff (l : LldbTrace) (a b : Bool × LldbEv)
    (ha : nonIssued a = true) (hb : nonIssued b = true) (hab : a ≠ b) :
    Before l a b ↔ Before (l.filter nonIssued) a b := by
  induction l with
  | nil => simp [Before, idxOfEv]
  | cons c rest ih =>
    by_cases hca : c = a
    · have hfc : List.filter nonIssued (c :: rest) = c :: List.filter nonIssued rest := by
        rw [List.filter_cons, if_pos (by rw [hca]; exact ha)]
      rw [hfc]
      have hbc : b ≠ c := fun e => hab (e.trans hca).symm
      have hidxa : ∀ X : LldbTrace, idxOfEv (c :: X) a = 0 := by
        intro X; simp [idxOfEv, hca]
      have hidxb : ∀ X : LldbTrace, idxOfEv (c :: X) b = idxOfEv X b + 1 :=
        fun X => idxOfEv_cons_ne X b c hbc.symm
      constructor
      · rintro ⟨hmem, _⟩
        have hm' : b ∈ rest := by
          rcases List.mem_cons.mp hmem with he | hm
          · exact absurd he hbc
          · exact hm
        exact ⟨List.mem_cons_of_mem _ (List.mem_filter.mpr ⟨hm', hb⟩),
          by rw [hidxa, hidxb]; omega⟩
      · rintro ⟨hmem, _⟩
        have hm' : b ∈ List.filter nonIssued rest := by
          rcases List.mem_cons.mp hmem with he | hm
          · exact absurd he hbc
          · exact hm
        exact ⟨List.mem_cons_of_mem _ (List.mem_filter.mp hm').1,
          by rw [hidxa, hidxb]; omega⟩
    · by_cases hcb : c = b
      · have hfc : List.filter nonIssued (c :: rest) = c :: List.filter nonIssued rest := by
          rw [List.filter_cons, if_pos (by rw [hcb]; exact hb)]
        rw [hfc]
        have hidxb0 : ∀ X : LldbTrace, idxOfEv (c :: X) b = 0 := by
          intro X; simp [idxOfEv, hcb]
        constructor
        · rintro ⟨_, hidx⟩
          rw [hidxb0] at hidx
          omega
        · rintro ⟨_, hidx⟩
          rw [hidxb0] at hidx
          omega
      · have hshifta : ∀ X : LldbTrace, idxOfEv (c :: X) a = idxOfEv X a + 1 :=
          fun X => idxOfEv_cons_ne X a c hca
        have hshiftb : ∀ X : LldbTrace, idxOfEv (c :: X) b = idxOfEv X b + 1 :=
          fun X => idxOfEv_cons_ne X b c hcb
        have hmemiff : ∀ X : LldbTrace, b ∈ c :: X ↔ b ∈ X := by
          intro X
          constructor
          · intro hm
            rcases List.mem_cons.mp hm with he | hm2
            · exact absurd he.symm hcb
            · exact hm2
          · exact List.mem_cons_of_mem _
        cases hfc : nonIssued c with
        | true =>
          have hfeq : List.filter nonIssued (c :: rest)
              = c :: List.filter nonIssued rest := by
            rw [List.filter_cons, if_pos hfc]
          rw [hfeq]
          constructor
          · rintro ⟨hmem, hidx⟩
            obtain ⟨hm2, hi2⟩ := ih.mp ⟨(hmemiff rest).mp hmem,
              by rw [hshifta, hshiftb] at hidx; omega⟩
            exact ⟨(hmemiff _).mpr hm2, by rw [hshifta, hshiftb]; omega⟩
          · rintro ⟨hmem, hidx⟩
            obtain ⟨hm2, hi2⟩ := ih.mpr ⟨(hmemiff _).mp hmem,
              by rw [hshifta, hshiftb] at hidx; omega⟩
            exact ⟨(hmemiff rest).mpr hm2, by rw [hshifta, hshiftb]; omega⟩
        | false =>
          have hfeq : List.filter nonIssued (c :: rest) = List.filter nonIssued rest := by
            rw [List.filter_cons, if_neg (by rw [hfc]; exact Bool.false_ne_true)]
          rw [hfeq]
          constructor
          · rintro ⟨hmem, hidx⟩
            exact ih.mp ⟨(hmemiff rest).mp hmem,
              by rw [hshifta, hshiftb] at hidx; omega⟩
          · intro hB
            obtain ⟨hm2, hi2⟩ := ih.mpr hB
            exact ⟨(hmemiff rest).mpr hm2, by rw [hshifta, hshiftb]; omega⟩

theorem fst_of_mem_tagEvs (t : Bool) (E : List LldbEv) (x : Bool × LldbEv)
    (h : x ∈ tagEvs t E) : x.1 = t := by
  rcases List.mem_map.mp h with ⟨e, _, rfl⟩
  rfl

theorem mem_tagEvs_of_mem (t : Bool) (E : List LldbEv) (e : LldbEv) (h : e ∈ E) :
    (t, e) ∈ tagEvs t E :=
  List.mem_map_of_mem _ h

theorem snd_mem_of_mem_tagEvs (t u : Bool) (E : List LldbEv) (e : LldbEv)
    (h : (u, e) ∈ tagEvs t E) : e ∈ E := by
  rcases List.mem_map.mp h with ⟨e', he', heq⟩
  have : e' = e := congrArg Prod.snd heq
  rw [← this]
  exact he'

theorem pc_done_of_rel_mem (p : LldbPc) (h : LldbEv.rel ∈ emittedEvs p) : p = .done := by
  cases p
  case done => rfl
  all_goals exact absurd h (by decide)

theorem eq_cons_cons_of_take2 (l : LldbTrace) (x y : Bool × LldbEv)
    (h : l.take 2 = [x, y]) : ∃ r, l = x :: y :: r := by
  cases l with
  | nil => simp at h
  | cons a l2 =>
    cases l2 with
    | nil => simp at h
    | cons b l3 =>
      simp [List.take] at h
      obtain ⟨h1, h2⟩ := h
      exact ⟨l3, by rw [h1, h2]⟩

/-- If `t`'s `alloc` precedes `t'`'s `alloc` in the trace, then `t` has
fully finished its call, and the non-`issued` trace is `t`'s complete block
followed by `t'`'s block. -/
theorem blocks_of_before_alloc (s : LldbSt) (hInv : LldbInv s) (t t' : Bool) (hne : t' ≠ t)
    (hb : Before s.trace (t, LldbEv.alloc) (t', LldbEv.alloc)) :
    pcOf s t = .done
    ∧ s.trace.filter nonIssued
        = tagEvs t (emittedEvs .done) ++ tagEvs t' (emittedEvs (pcOf s t'))
    ∧ LldbEv.alloc ∈ emittedEvs (pcOf s t') := by
  obtain ⟨t1, hu, hside⟩ := hInv.2.2.2.2.1
  have ht' : t' = !t := (bool_cases_of t t').resolve_left hne
  have hneq : ((t, LldbEv.alloc) : Bool × LldbEv) ≠ (t', LldbEv.alloc) :=
    fun e => hne (congrArg Prod.fst e).symm
  have hbu : Before (s.trace.filter nonIssued) (t, LldbEv.alloc) (t', LldbEv.alloc) :=
    (before_filter_iff s.trace (t, LldbEv.alloc) (t', LldbEv.alloc) rfl rfl hneq).mp hb
  obtain ⟨hmemb, hidx⟩ := hbu
  have ht1 : t1 = t := by
    rcases bool_cases_of t t1 with he | he
    · exact he
    · exfalso
      rw [he, Bool.not_not, ← ht'] at hu
      have hm1 : (t', LldbEv.alloc) ∈ tagEvs t' (emittedEvs (pcOf s t')) := by
        rw [hu] at hmemb
        rcases List.mem_append.mp hmemb with hm | hm
        · exact hm
        · exact absurd (fst_of_mem_tagEvs _ _ _ hm) hne
      have hnm1 : (t, LldbEv.alloc) ∉ tagEvs t' (emittedEvs (pcOf s t')) := by
        intro hm
        exact hne (fst_of_mem_tagEvs _ _ _ hm).symm
      rw [hu, idxOfEv_append_right _ _ _ hnm1] at hidx
      rw [idxOfEv_append_left _ _ _ hm1] at hidx
      have hlt := idxOfEv_lt_length_of_mem _ _ hm1
      omega
  rw [ht1, ← ht'] at hu hside
  have halloc2 : LldbEv.alloc ∈ emittedEvs (pcOf s t') := by
    rw [hu] at hmemb
    rcases List.mem_append.mp hmemb with hm | hm
    · exact absurd (fst_of_mem_tagEvs _ _ _ hm) hne
    · exact snd_mem_of_mem_tagEvs _ _ _ _ hm
  have hdone : pcOf s t = .done := hside (List.ne_nil_of_mem halloc2)
  refine ⟨hdone, ?_, halloc2⟩
  rw [← hdone]
  exact hu

/-- C2: the engine bridge admits at most one in-flight call.  For any
schedule of the two-task `lldbRun` model: (i) never are both tasks inside
the critical section; (ii) if `t` allocated its request buffer before `t'`
did, then `t` released the flag (after freeing both of its buffers) before
`t'` even allocated — the buffer lifetimes never overlap, with the second
call waiting until the first completes; (iii) under the same hypothesis,
`t'`'s request buffer is written only after `t`'s response was observed;
(iv) if `t`'s call was issued before `t'`'s and `t'` completed, then `t`
completed first — strict FIFO submission order. -/
theorem lldbRun_single_flight (sch : List Bool) (t t' : Bool) (hne : t' ≠ t) :
    (¬(inCrit (pcOf (lldbRunSched sch) t) = true
        ∧ inCrit (pcOf (lldbRunSched sch) t') = true))
    ∧ (Before (lldbRunSched sch).trace (t, LldbEv.alloc) (t', LldbEv.alloc) →
        Before (lldbRunSched sch).trace (t, LldbEv.rel) (t', LldbEv.alloc))
    ∧ (Before (lldbRunSched sch).trace (t, LldbEv.alloc) (t', LldbEv.alloc) →
        (t', LldbEv.write) ∈ (lldbRunSched sch).trace →
        Before (lldbRunSched sch).trace (t, LldbEv.readResp) (t', LldbEv.write))
    ∧ (Before (lldbRunSched sch).trace (t, LldbEv.issued) (t', LldbEv.issued) →
        (t', LldbEv.rel) ∈ (lldbRunSched sch).trace →
        Before (lldbRunSched sch).trace (t, LldbEv.rel) (t', LldbEv.rel)) := by
  have hInv := lldbRunSched_inv sch
  have ht' : t' = !t := (bool_cases_of t t').resolve_left hne
  refine ⟨?_, ?_, ?_, ?_⟩
  · rintro ⟨h1, h2⟩
    rw [ht'] at h2
    exact hInv.1 t ⟨h1, h2⟩
  · intro hb
    obtain ⟨hdone, hu, halloc⟩ := blocks_of_before_alloc _ hInv t t' hne hb
    have hneq : ((t, LldbEv.rel) : Bool × LldbEv) ≠ (t', LldbEv.alloc) :=
      fun e => hne (congrArg Prod.fst e).symm
    apply (before_filter_iff _ (t, LldbEv.rel) (t', LldbEv.alloc) rfl rfl hneq).mpr
    rw [hu]
    apply before_append_blocks
    · exact mem_tagEvs_of_mem _ _ _ (by decide)
    · intro hm
      exact hne (fst_of_mem_tagEvs _ _ _ hm)
    · exact mem_tagEvs_of_mem _ _ _ halloc
  · intro hb hw
    obtain ⟨hdone, hu, halloc⟩ := blocks_of_before_alloc _ hInv t t' hne hb
    have hneq : ((t, LldbEv.readResp) : Bool × LldbEv) ≠ (t', LldbEv.write) :=
      fun e => hne (congrArg Prod.fst e).symm
    apply (before_filter_iff _ (t, LldbEv.readResp) (t', LldbEv.write) rfl rfl hneq).mpr
    rw [hu]
    apply before_append_blocks
    · exact mem_tagEvs_of_mem _ _ _ (by decide)
    · intro hm
      exact hne (fst_of_mem_tagEvs _ _ _ hm)
    · have hwu : (t', LldbEv.write) ∈ (lldbRunSched sch).trace.filter nonIssued :=
        List.mem_filter.mpr ⟨hw, rfl⟩
      rw [hu] at hwu
      rcases List.mem_append.mp hwu with hm | hm
      · exact absurd (fst_of_mem_tagEvs _ _ _ hm) hne
      · exact hm
  · intro hb hrel
    obtain ⟨t1, hu, hside⟩ := hInv.2.2.2.2.1
    have hC4 := hInv.2.2.2.2.2
    have hreln : (t', LldbEv.rel) ∈ (lldbRunSched sch).trace.filter nonIssued :=
      List.mem_filter.mpr ⟨hrel, rfl⟩
    have hdone' : pcOf (lldbRunSched sch) t' = .done := by
      rw [hu] at hreln
      rcases List.mem_append.mp hreln with hm | hm
      · have h1 : t' = t1 := fst_of_mem_tagEvs _ _ _ hm
        have h2 := snd_mem_of_mem_tagEvs _ _ _ _ hm
        rw [h1]
        exact pc_done_of_rel_mem _ h2
      · have h1 : t' = !t1 := fst_of_mem_tagEvs _ _ _ hm
        have h2 := snd_mem_of_mem_tagEvs _ _ _ _ hm
        rw [h1]
        exact pc_done_of_rel_mem _ h2
    have htne : (lldbRunSched sch).trace ≠ [] := List.ne_nil_of_mem hrel
    rcases hC4 with h4 | ⟨t0, h4⟩
    · exact absurd h4 htne
    obtain ⟨r, hrshape⟩ := eq_cons_cons_of_take2 _ _ _ h4
    have ht0 : t0 = t := by
      rcases bool_cases_of t t0 with he | he
      · exact he
      · exfalso
        obtain ⟨hmemb, hidx⟩ := hb
        rw [he, ← ht'] at hrshape
        rw [hrshape, idxOfEv_cons_self] at hidx
        omega
    rw [ht0] at hrshape
    have hushape : (lldbRunSched sch).trace.filter nonIssued
        = (t, LldbEv.alloc) :: List.filter nonIssued r := by
      rw [hrshape]
      rfl
    have ht1 : t1 = t := by
      rcases bool_cases_of t t1 with he | he
      · exact he
      · exfalso
        rw [he, Bool.not_not, ← ht'] at hu
        rw [hdone', hushape] at hu
        rw [show tagEvs t' (emittedEvs .done)
            = (t', LldbEv.alloc) :: tagEvs t' [LldbEv.write, LldbEv.invoke,
                LldbEv.readResp, LldbEv.freeRx, LldbEv.freeTx, LldbEv.rel] from rfl,
          List.cons_append] at hu
        injection hu with hhead _
        exact hne (congrArg Prod.fst hhead).symm
    rw [ht1, ← ht'] at hu hside
    have hdonet : pcOf (lldbRunSched sch) t = .done := by
      apply hside
      rw [hdone']
      decide
    have hneq : ((t, LldbEv.rel) : Bool × LldbEv) ≠ (t', LldbEv.rel) :=
      fun e => hne (congrArg Prod.fst e).symm
    apply (before_filter_iff _ (t, LldbEv.rel) (t', LldbEv.rel) rfl rfl hneq).mpr
    rw [hu, hdonet, hdone']
    apply before_append_blocks
    · exact mem_tagEvs_of_mem _ _ _ (by decide)
    · intro hm
      exact hne (fst_of_mem_tagEvs _ _ _ hm)
    · exact mem_tagEvs_of_mem _ _ _ (by decide)

/-- Witness for C2: a schedule running task `true` to completion and then
task `false`; the theorem instantiated there yields that the first call's
release precedes the second call's buffer allocation. -/
theorem lldbRun_single_flight_witness :
    ((false : Bool) ≠ true)
    ∧ Before (lldbRunSched [true, true, true, true, true, true, true,
        false, false, false, false, false, false, false]).trace
        (true, LldbEv.alloc) (false, LldbEv.alloc)
    ∧ Before (lldbRunSched [true, true, true, true, true, true, true,
        false, false, false, false, false, false, false]).trace
        (true, LldbEv.rel) (false, LldbEv.alloc) :=
  ⟨by decide, by decide,
   (lldbRun_single_flight
      [true, true, true, true, true, true, true,
       false, false, false, false, false, false, false]
      true false (by decide)).2.1 (by decide)⟩
